import Mathlib

/-!
# Verification of the astrocam-go file-batching / archive / upload pipeline

Shallow embedding of `astrocam.go` (package main).  Go strings are modelled
as `List Char` (the program only ever handles ASCII file names, on which
Go byte-wise string order coincides with code-point order); Go's `-1`
index sentinels become `Option Nat`; the filesystem, the HTTP server and
the external rar tool are abstracted as oracles supplied to the model, and
the side-effecting pipeline functions return explicit action traces and a
temp-directory state.
-/

namespace Astrocam

/-- A Go string, as its list of characters. -/
abbrev GoStr := List Char

/-- Characters of a Lean string literal, used to write concrete Go strings. -/
def gs (s : String) : GoStr := s.data

/-- Go `<` on strings: byte-wise lexicographic comparison
(modelled on code points; ASCII only in this program). -/
def goStrLtB : GoStr → GoStr → Bool
  | [], [] => false
  | [], _ :: _ => true
  | _ :: _, [] => false
  | a :: as, b :: bs =>
    if a.toNat < b.toNat then true
    else if b.toNat < a.toNat then false
    else goStrLtB as bs

/-- Go `strings.Index(s, c)` for a one-character needle: index of the first
occurrence of `c`, `none` for Go's `-1`. -/
def firstIdx : GoStr → Char → Option Nat
  | [], _ => none
  | c :: rest, t => if c = t then some 0 else (firstIdx rest t).map (· + 1)

/-- Go `strings.LastIndex(s, c)` for a one-character needle: index of the last
occurrence of `c`, `none` for Go's `-1`. -/
def lastIdx : GoStr → Char → Option Nat
  | [], _ => none
  | c :: rest, t =>
    match lastIdx rest t with
    | some i => some (i + 1)
    | none => if c = t then some 0 else none

/-- Go `strings.LastIndex(s, sub)`: start index of the last occurrence of the
substring `sub`, `none` for Go's `-1` (`LastIndex(s, "") = len s`, as in Go). -/
def lastSubstrIdx : GoStr → GoStr → Option Nat
  | [], sub => if sub = [] then some 0 else none
  | c :: rest, sub =>
    match lastSubstrIdx rest sub with
    | some i => some (i + 1)
    | none => if List.isPrefixOf sub (c :: rest) then some 0 else none

/-- Strip trailing `/` characters (part of Go `filepath.Base`). -/
def stripTrailingSlashes (s : GoStr) : GoStr :=
  (s.reverse.dropWhile (fun c => c = '/')).reverse

/-- Go `filepath.Base` on unix paths: empty string gives `"."`, otherwise
trailing separators are removed and the part after the last `/` is kept. -/
def goBase (s : GoStr) : GoStr :=
  if s = [] then gs "."
  else
    let t := stripTrailingSlashes s
    if t = [] then gs "/"
    else
      match lastIdx t '/' with
      | none => t
      | some i => t.drop (i + 1)

/-- Go `filepath.Join(dir, name)` for the already-clean dir/name pairs the
program builds (a clean `dir` with no trailing slash and a `/`-free entry
name, on which `filepath.Clean` is the identity). -/
def goJoin (dir name : GoStr) : GoStr := dir ++ '/' :: name

/-- Go `filepath.Abs` for the already-clean paths the program builds:
an absolute path is returned unchanged, a relative one is prefixed with
the working directory (`filepath.Clean` is the identity on these). -/
def goAbs (cwd p : GoStr) : GoStr :=
  if p.head? = some '/' then p else cwd ++ '/' :: p

/-- One entry of a directory listing, as seen by `os.ReadDir`. -/
structure DirEntry where
  name : GoStr
  isDir : Bool
deriving DecidableEq, Repr

/-- Does `.*ext` (with `ext` a literal, `.` excluding newline as in Go's
default regexp mode) match some leading part of `s`?  True iff `ext`
occurs in `s` with only non-newline characters before it. -/
def containsExtAfter (ext : GoStr) : GoStr → Bool
  | [] => List.isPrefixOf ext []
  | c :: rest =>
    if List.isPrefixOf ext (c :: rest) then true
    else if c = '\n' then false
    else containsExtAfter ext rest

/-- The match test of `fileBrowser` (astrocam.go:384,397): Go
`regexp.MatchString` with pattern `^area(_|-SF_).*ext` (`ext` quoted by
`regexp.QuoteMeta`).  The pattern is anchored at the start only, so a
match is a decomposition `area ++ sep ++ mid ++ ext ++ anything`. -/
def regexMatch (area ext s : GoStr) : Bool :=
  (List.isPrefixOf (area ++ gs "_") s
     && containsExtAfter ext (s.drop (area.length + 1)))
  || (List.isPrefixOf (area ++ gs "-SF_") s
     && containsExtAfter ext (s.drop (area.length + 4)))

/-- Declarative reading of the locator pattern `^area(_|-SF_).*ext`:
the name starts with `area` and a separator, then has the extension
somewhere later with no newline in between; anything may follow. -/
def matchSpec (area ext name : GoStr) : Prop :=
  ∃ sep mid rest, (sep = gs "_" ∨ sep = gs "-SF_")
    ∧ name = area ++ sep ++ mid ++ ext ++ rest ∧ '\n' ∉ mid

/-- Model of `fileBrowser` (astrocam.go:382-403): non-directory entries whose name
matches the area pattern, joined onto the directory path. -/
def fileBrowser (area dir ext : GoStr) (entries : List DirEntry) : List GoStr :=
  (entries.filter (fun e => !e.isDir && regexMatch area ext e.name)).map
    (fun e => goJoin dir e.name)

/-- Model of `sortByNamePart` (astrocam.go:406-419): the sort key of an image file.
The Go slice `filename[pos+1 : lastDot]` is modelled by `take`/`drop`;
it is exact whenever `pos + 1 ≤ lastDot`, which `sortByNamePart_safe`
below establishes for every name the locator can produce. -/
def sortByNamePart (inputFileName : GoStr) : GoStr :=
  match firstIdx (goBase inputFileName) '_', lastIdx (goBase inputFileName) '.' with
  | none, _ => goBase inputFileName
  | some pos, none => (goBase inputFileName).drop (pos + 1)
  | some pos, some lastDot => ((goBase inputFileName).take lastDot).drop (pos + 1)

/-- Go panics on the slice `filename[pos+1 : lastDot]` of `sortByNamePart`
exactly when `pos + 1 > lastDot`; this predicate is true iff the Go code
would panic on `inputFileName`. -/
def sortByNamePartPanics (inputFileName : GoStr) : Bool :=
  match firstIdx (goBase inputFileName) '_', lastIdx (goBase inputFileName) '.' with
  | some pos, some lastDot => decide (lastDot < pos + 1)
  | _, _ => false

/-- Comparison by a derived key, as used with Go `sort.Slice` whose `less`
callback is `key lhs < key rhs`: `leBy key a b` says `a` need not come
after `b`. -/
def leBy (key : GoStr → GoStr) (a b : GoStr) : Prop :=
  goStrLtB (key b) (key a) = false

instance (key : GoStr → GoStr) : DecidableRel (leBy key) := by
  intro a b; unfold leBy; infer_instance

/-- Model of `FileGroup` (astrocam.go:66-69). -/
structure FileGroup where
  FilesToArchive : List GoStr
  FilesToDelete : List GoStr
deriving DecidableEq, Repr

/-- Model of `getImageFiles` (astrocam.go:474-515): locate the area's files, sort
them by `sortByNamePart`, take at most `count` of them, and pair each
chosen file's basename (archive member name) with its absolute path
(for later relocation). -/
def getImageFiles (area dir ext cwd : GoStr) (count : Nat)
    (entries : List DirEntry) : FileGroup :=
  let files := (fileBrowser area dir ext entries).insertionSort (leBy sortByNamePart)
  let maxFiles := min count files.length
  let chosen := files.take maxFiles
  { FilesToArchive := chosen.map goBase
    FilesToDelete := chosen.map (goAbs cwd) }

/-- A wall-clock date and time, the `time.Now()` fields used by the
archive namer. -/
structure DateTime where
  year : Nat
  month : Nat
  day : Nat
  hour : Nat
  minute : Nat
  second : Nat
deriving DecidableEq, Repr

/-- A two-digit zero-padded decimal rendering, as Go `time.Format` writes
month, day, hour, minute and second fields. -/
def pad2 (n : Nat) : GoStr := [Nat.digitChar (n / 10 % 10), Nat.digitChar (n % 10)]

/-- A four-digit zero-padded decimal rendering, as Go `time.Format` writes
the year (years up to 9999). -/
def pad4 (n : Nat) : GoStr :=
  [Nat.digitChar (n / 1000 % 10), Nat.digitChar (n / 100 % 10),
   Nat.digitChar (n / 10 % 10), Nat.digitChar (n % 10)]

/-- Go `now.Format("2006-01-02")` (astrocam.go:750). -/
def dateStr (dt : DateTime) : GoStr :=
  pad4 dt.year ++ '-' :: (pad2 dt.month ++ '-' :: pad2 dt.day)

/-- Go `now.Format("150405")` (astrocam.go:751). -/
def timeStr (dt : DateTime) : GoStr :=
  pad2 dt.hour ++ pad2 dt.minute ++ pad2 dt.second

/-- The archive basename built at astrocam.go:753-755:
`fmt.Sprintf("%s_%s%s_%s%s%s", dateStr, prefix, area, timeStr, postfix, ext)`. -/
def mkArchiveBasename (pre area : GoStr) (dt : DateTime) (post ext : GoStr) : GoStr :=
  dateStr dt ++ '_' :: (pre ++ area ++ '_' :: (timeStr dt ++ post ++ ext))

/-- The extension-stripping step of `sortByArchiveName` (astrocam.go:426-429):
truncate at the last occurrence of the archive extension, if any. -/
def stripExtName (archiveExt filename : GoStr) : GoStr :=
  match lastSubstrIdx filename archiveExt with
  | some pos => filename.take pos
  | none => filename

/-- The postfix-stripping step of `sortByArchiveName` (astrocam.go:432-437):
when a postfix is configured, truncate at its last occurrence. -/
def stripPostName (post filename : GoStr) : GoStr :=
  if post ≠ [] then
    match lastSubstrIdx filename post with
    | some pos => filename.take pos
    | none => filename
  else filename

/-- The date/time extraction of `sortByArchiveName` (astrocam.go:440-454):
the part before the first `_` concatenated with the part from the last
`_` on, with every `-` and `_` removed. -/
def dateTimeCriteria (f2 : GoStr) : GoStr :=
  match firstIdx f2 '_' with
  | none => f2
  | some pos =>
    match lastIdx f2 '_' with
    | none => f2.take pos
    | some p2 => (f2.take pos ++ f2.drop p2).filter (fun c => c ≠ '-' && c ≠ '_')

/-- Model of `sortByArchiveName` (astrocam.go:422-455): strip the archive extension
and the configured postfix from the basename, then concatenate the part
before the first `_` (the date) with the part from the last `_` on (the
time), dropping every `-` and `_`. -/
def sortByArchiveName (archiveExt post : GoStr) (archiveFileName : GoStr) : GoStr :=
  dateTimeCriteria (stripPostName post (stripExtName archiveExt (goBase archiveFileName)))

/-- The canonical chronological key `YYYYMMDDHHMMSS` that
`sortByArchiveName` recovers from a name the archive namer produced. -/
def dtKey (dt : DateTime) : GoStr :=
  pad4 dt.year ++ pad2 dt.month ++ pad2 dt.day
    ++ pad2 dt.hour ++ pad2 dt.minute ++ pad2 dt.second

/-- Chronological order on date-times: lexicographic by
(year, month, day, hour, minute, second). -/
def chronoLe (a b : DateTime) : Prop :=
  a.year < b.year ∨ (a.year = b.year ∧
    (a.month < b.month ∨ (a.month = b.month ∧
      (a.day < b.day ∨ (a.day = b.day ∧
        (a.hour < b.hour ∨ (a.hour = b.hour ∧
          (a.minute < b.minute ∨ (a.minute = b.minute ∧
            a.second ≤ b.second)))))))))

instance : DecidableRel chronoLe := by
  intro a b; unfold chronoLe; infer_instance

/-- Realistic bounds on the fields of a `time.Now()` value; all that the
key comparison needs is that each low-order field fits in its two digits. -/
abbrev DTBounds (dt : DateTime) : Prop :=
  dt.year ≤ 9999 ∧ dt.month ≤ 99 ∧ dt.day ≤ 99
    ∧ dt.hour ≤ 99 ∧ dt.minute ≤ 99 ∧ dt.second ≤ 99

/-- The numeric value of a decimal digit string (most significant first). -/
def listVal : GoStr → Nat
  | [] => 0
  | c :: l => (c.toNat - 48) * 10 ^ l.length + listVal l

/-- The mixed-radix value `YYYYMMDDHHMMSS` of a date-time, the number the
key `dtKey` spells in decimal. -/
def dtVal (dt : DateTime) : Nat :=
  ((((dt.year * 100 + dt.month) * 100 + dt.day) * 100 + dt.hour) * 100
      + dt.minute) * 100 + dt.second

/-- The ordering key as the spec describes it: the substring of the
basename after the first `_` with the trailing extension removed, falling
back to the full basename when no `_` occurs. -/
def specNameKey (ext name : GoStr) : GoStr :=
  match firstIdx name '_' with
  | none => name
  | some pos => (name.take (name.length - ext.length)).drop (pos + 1)

/-- The three example image files of the ordering property, named with
embedded timestamps. -/
def exEarly : DirEntry := ⟨gs "064_2025-01-01_09-59-55.fts", false⟩

/-- See `exEarly`. -/
def exMid : DirEntry := ⟨gs "064_2025-01-01_10-00-00.fts", false⟩

/-- See `exEarly`. -/
def exLate : DirEntry := ⟨gs "064_2025-01-01_10-00-05.fts", false⟩

/-- The Locator+Selector selects the three example files in chronological
order from the given directory listing. -/
abbrev chronoSelected (entries : List DirEntry) : Prop :=
  (getImageFiles (gs "064") (gs "cam") (gs ".fts") (gs "/w") 3 entries).FilesToArchive
    = [exEarly.name, exMid.name, exLate.name]

/-- Observable pipeline actions, recorded as a trace by the model. -/
inductive Act
  /-- Recorded when `uploadFile` is invoked on this path (astrocam.go:819). -/
  | upload (f : GoStr)
  /-- Recorded when `deleteFile` is invoked on this path (astrocam.go:895). -/
  | delete (f : GoStr)
  /-- `time.Sleep` of this many seconds. -/
  | sleepA (secs : Nat)
  /-- one per-file move/delete try of `moveImages`, tagged with the
  attempt number (astrocam.go:526-548). -/
  | moveTry (attempt : Nat) (f : GoStr)
  /-- the production-mode warning after the final failed move attempt
  (astrocam.go:566). -/
  | warnMove (failed : List GoStr)
  /-- `os.Exit` with this code. -/
  | exitProc (code : Nat)
  /-- Model of `makeJobForAreas` accepted this area for processing
  (astrocam.go:966-968); instrumentation marking the batch guard. -/
  | processArea (a : GoStr)
deriving DecidableEq, Repr

/-- The environment a pipeline iteration runs against: configuration plus
oracles for the filesystem, the archiver and the HTTP server. -/
structure Env where
  testMode : Bool
  count : Nat
  areas : List GoStr
  cameraDir : GoStr
  tempDir : GoStr
  cwd : GoStr
  fitsExt : GoStr
  archiveExt : GoStr
  pre : GoStr
  post : GoStr
  /-- current camera-directory listing -/
  camera : List DirEntry
  /-- `time.Now()` when an archive is named -/
  dt : DateTime
  /-- whether `os.Chdir` into the camera directory succeeds -/
  chdirOk : Bool
  /-- whether `createArchive` succeeds on this path -/
  createOkF : GoStr → Bool
  /-- whether `testArchive` succeeds on this path -/
  integrityOkF : GoStr → Bool
  /-- HTTP response status for uploading this path; `none` is a
  transport-level error -/
  uploadResp : GoStr → Option Nat
  /-- whether `os.Remove` succeeds on this archive path -/
  deleteOkF : GoStr → Bool
  /-- whether the per-file move/delete of `moveImages` succeeds, per
  attempt number and path (the target-exists delete branch and the rename
  branch are both fallible filesystem operations, abstracted together) -/
  moveOkF : Nat → GoStr → Bool

/-- Mutable pipeline state: the temp-directory contents and whether
`os.Exit` has been called (with which code). -/
structure St where
  temp : List GoStr
  exited : Option Nat
deriving DecidableEq, Repr

/-- Model of `moveImages` (astrocam.go:518-583), with `maxRetries = 2` unrolled:
try every file once; on failures sleep 3 seconds and retry exactly the
failed subset; if failures remain, exit 1 in test mode and warn-and-succeed
in production.  Returns the trace and the `os.Exit` code if any; the Go
function's `error` result is always `nil` whenever it returns. -/
def moveImagesM (env : Env) (files : List GoStr) : List Act × Option Nat :=
  if files.filter (fun f => !env.moveOkF 1 f) = [] then
    (files.map (Act.moveTry 1), none)
  else if (files.filter (fun f => !env.moveOkF 1 f)).filter
      (fun f => !env.moveOkF 2 f) = [] then
    (files.map (Act.moveTry 1)
      ++ Act.sleepA 3 :: (files.filter (fun f => !env.moveOkF 1 f)).map (Act.moveTry 2),
      none)
  else if env.testMode then
    (files.map (Act.moveTry 1)
      ++ Act.sleepA 3 :: (files.filter (fun f => !env.moveOkF 1 f)).map (Act.moveTry 2)
      ++ [Act.exitProc 1], some 1)
  else
    (files.map (Act.moveTry 1)
      ++ Act.sleepA 3 :: (files.filter (fun f => !env.moveOkF 1 f)).map (Act.moveTry 2)
      ++ [Act.warnMove ((files.filter (fun f => !env.moveOkF 1 f)).filter
          (fun f => !env.moveOkF 2 f))], none)

/-- The upload success test of `uploadFile` (astrocam.go:869-891): a
transport error is a failure, a response is a success iff its status is
in `[200, 300)`. -/
def uploadResultOk (resp : Option Nat) : Bool :=
  match resp with
  | none => false
  | some code => 200 ≤ code && code < 300

/-- Model of `uploadFile` (astrocam.go:819-892) at the pipeline level: perform the
attempt, and on failure exit 1 in test mode.  (The throttle clock is
modelled separately by `UploadClock` below.)  Returns the state, the
trace and whether the upload succeeded. -/
def uploadFileM (env : Env) (st : St) (f : GoStr) : St × List Act × Bool :=
  if uploadResultOk (env.uploadResp f) then (st, [Act.upload f], true)
  else if env.testMode then
    ({ st with exited := some 1 }, [Act.upload f, Act.exitProc 1], false)
  else (st, [Act.upload f], false)

/-- Model of `deleteFile` (astrocam.go:895-901): remove the file, reporting failure
without exiting. -/
def deleteFileM (env : Env) (st : St) (f : GoStr) : St × List Act × Bool :=
  if env.deleteOkF f then
    ({ st with temp := st.temp.erase f }, [Act.delete f], true)
  else (st, [Act.delete f], false)

/-- Model of `makeJobForArchive` (astrocam.go:904-913): upload, and delete only
after a successful upload (a delete failure is only warned about). -/
def makeJobForArchiveM (env : Env) (st : St) (f : GoStr) : St × List Act :=
  if (uploadFileM env st f).2.2 then
    ((deleteFileM env (uploadFileM env st f).1 f).1,
      (uploadFileM env st f).2.1 ++ (deleteFileM env (uploadFileM env st f).1 f).2.1)
  else ((uploadFileM env st f).1, (uploadFileM env st f).2.1)

/-- Model of `getArchiveFiles` (astrocam.go:458-471): glob `*<archiveExt>` in the
temp directory and sort by `sortByArchiveName`. -/
def getArchiveFiles (env : Env) (st : St) : List GoStr :=
  (st.temp.filter (fun f => List.isSuffixOf env.archiveExt f)).insertionSort
    (leBy (sortByArchiveName env.archiveExt env.post))

/-- The per-archive loop of `makeJobForArchives` (astrocam.go:923-926),
stopping if the process has exited. -/
def archJobs (env : Env) : St → List GoStr → St × List Act
  | st, [] => (st, [])
  | st, f :: rest =>
    if st.exited.isSome then (st, [])
    else
      ((archJobs env (makeJobForArchiveM env st f).1 rest).1,
        (makeJobForArchiveM env st f).2
          ++ (archJobs env (makeJobForArchiveM env st f).1 rest).2)

/-- Model of `makeJobForArchives` (astrocam.go:916-927): re-deliver every archive
found in the temp directory, oldest key first. -/
def makeJobForArchivesM (env : Env) (st : St) : St × List Act :=
  archJobs env st (getArchiveFiles env st)

/-- The archive path `packImagesForArea` builds at astrocam.go:753-755:
the temp directory joined with the named basename. -/
def plannedArchive (env : Env) (area : GoStr) : GoStr :=
  goJoin env.tempDir (mkArchiveBasename env.pre area env.dt env.post env.archiveExt)

/-- Result of `packImagesForArea`, which in Go returns the strings
`"EMPTY"`, `"ERROR"` (or an error), or the created archive's path. -/
inductive PackResult
  | emptyRes
  | errRes
  | okRes (name : GoStr)
deriving DecidableEq, Repr

/-- Model of `packImagesForArea` (astrocam.go:730-811): select the batch, name the
archive, chdir into the camera directory, create and integrity-test the
archive, then relocate the source files.  Create and integrity failures
are fatal in test mode and `ERROR` (archive left in the temp directory)
in production.  The archive file is on disk from creation on, matching
the built-in ZIP backend, which opens the output file first. -/
def packImagesForAreaM (env : Env) (st : St) (area : GoStr) : St × List Act × PackResult :=
  if (getImageFiles area env.cameraDir env.fitsExt env.cwd env.count env.camera).FilesToArchive
       = [] then
    (st, [], .emptyRes)
  else if env.chdirOk = false then
    if env.testMode then
      ({ st with exited := some 1 }, [Act.sleepA 5, Act.exitProc 1], .errRes)
    else (st, [Act.sleepA 5], .errRes)
  else if env.createOkF (plannedArchive env area) = false then
    if env.testMode then
      ({ st with temp := st.temp ++ [plannedArchive env area], exited := some 1 },
        [Act.sleepA 5, Act.exitProc 1], .errRes)
    else
      ({ st with temp := st.temp ++ [plannedArchive env area] }, [Act.sleepA 5], .errRes)
  else if env.integrityOkF (plannedArchive env area) = false then
    if env.testMode then
      ({ st with temp := st.temp ++ [plannedArchive env area], exited := some 1 },
        [Act.sleepA 5, Act.exitProc 1], .errRes)
    else
      ({ st with temp := st.temp ++ [plannedArchive env area] }, [Act.sleepA 5], .errRes)
  else
    match (moveImagesM env
        (getImageFiles area env.cameraDir env.fitsExt env.cwd env.count
          env.camera).FilesToDelete).2 with
    | some c =>
      ({ st with temp := st.temp ++ [plannedArchive env area], exited := some c },
        Act.sleepA 5 :: (moveImagesM env
          (getImageFiles area env.cameraDir env.fitsExt env.cwd env.count
            env.camera).FilesToDelete).1, .errRes)
    | none =>
      ({ st with temp := st.temp ++ [plannedArchive env area] },
        Act.sleepA 5 :: (moveImagesM env
          (getImageFiles area env.cameraDir env.fitsExt env.cwd env.count
            env.camera).FilesToDelete).1,
        .okRes (plannedArchive env area))

/-- Model of `makeJobForArea` (astrocam.go:930-948): pack the area's batch; only a
successfully created and tested archive goes on to `makeJobForArchive`. -/
def makeJobForAreaM (env : Env) (st : St) (area : GoStr) : St × List Act :=
  match (packImagesForAreaM env st area).2.2 with
  | .emptyRes => ((packImagesForAreaM env st area).1, (packImagesForAreaM env st area).2.1)
  | .errRes => ((packImagesForAreaM env st area).1, (packImagesForAreaM env st area).2.1)
  | .okRes name =>
    ((makeJobForArchiveM env (packImagesForAreaM env st area).1 name).1,
      (packImagesForAreaM env st area).2.1
        ++ (makeJobForArchiveM env (packImagesForAreaM env st area).1 name).2)

/-- The per-area loop of `makeJobForAreas` (astrocam.go:954-970): an area
is processed iff its camera-directory match count reaches the configured
batch size. -/
def areaJobs (env : Env) : St → List GoStr → St × List Act
  | st, [] => (st, [])
  | st, a :: rest =>
    if st.exited.isSome then (st, [])
    else
      if env.count ≤ (fileBrowser a env.cameraDir env.fitsExt env.camera).length then
        ((areaJobs env (makeJobForAreaM env st a).1 rest).1,
          Act.processArea a
            :: ((makeJobForAreaM env st a).2
              ++ (areaJobs env (makeJobForAreaM env st a).1 rest).2))
      else areaJobs env st rest

/-- Model of `makeJobForAreas` (astrocam.go:951-976), minus the test-idle-window
bookkeeping, which touches no file. -/
def makeJobForAreasM (env : Env) (st : St) : St × List Act :=
  areaJobs env st env.areas

/-- One `programLoop` iteration (astrocam.go:992-1001): re-deliver leftover
archives from the temp directory, then scan the areas. -/
def programLoopM (env : Env) (st : St) : St × List Act :=
  ((makeJobForAreasM env (makeJobForArchivesM env st).1).1,
    (makeJobForArchivesM env st).2
      ++ (makeJobForAreasM env (makeJobForArchivesM env st).1).2)

/-- The delivery-throttle clock: current time and the recorded start time
of the last upload attempt, in seconds (`none` models the zero
`time.Time` initial value). -/
structure UploadClock where
  now : Nat
  last : Option Nat
deriving DecidableEq, Repr

/-- Model of `waitForUploadThrottle` (astrocam.go:713-727): sleep until 120 seconds
have passed since the recorded start of the previous attempt; the first
attempt of the process (`lastUploadTime.IsZero()`) never waits. -/
def waitForUploadThrottle (s : UploadClock) : UploadClock :=
  match s.last with
  | none => s
  | some t =>
    if s.now - t < 120 then { s with now := s.now + (120 - (s.now - t)) } else s

/-- One `uploadFile` call as seen by the clock (astrocam.go:819-826):
arbitrary time `d1` passes before the call, the throttle waits, time `d2`
passes between the end of the wait and the `time.Now()` read, and the
attempt's start time is recorded before the network request is made. -/
def uploadAttempt (d1 d2 : Nat) (s : UploadClock) : UploadClock :=
  { now := (waitForUploadThrottle { s with now := s.now + d1 }).now + d2,
    last := some ((waitForUploadThrottle { s with now := s.now + d1 }).now + d2) }

/-- Model of `uploadFile` with its HTTP outcome: the clock effect is the same for
success, failure and transport error, because `lastUploadTime` is written
before `client.Do`. -/
def uploadAttemptR (resp : Option Nat) (d1 d2 : Nat) (s : UploadClock) :
    UploadClock × Bool :=
  (uploadAttempt d1 d2 s, uploadResultOk resp)

/-- The recorded start times (`lastUploadTime` values) of a sequence of
upload attempts, each preceded by arbitrary ambient delays. -/
def recordedTimes : List (Nat × Nat) → UploadClock → List Nat
  | [], _ => []
  | d :: ds, s =>
    (uploadAttempt d.1 d.2 s).now :: recordedTimes ds (uploadAttempt d.1 d.2 s)

/-- The throttle-clock sanity invariant: the recorded last-attempt time
never lies in the future. -/
def ClockInv (s : UploadClock) : Prop := ∀ t, s.last = some t → t ≤ s.now


/-- A concrete production-mode environment in which the camera directory
holds a full batch for area `064`, archive creation succeeds, the
integrity test fails, and the server accepts every upload; used to
exhibit the fate of an integrity-failed archive across iterations. -/
def integrityFailEnv : Env where
  testMode := false
  count := 3
  areas := [gs "064"]
  cameraDir := gs "cam"
  tempDir := gs "tmp"
  cwd := gs "/w"
  fitsExt := gs ".fts"
  archiveExt := gs ".zip"
  pre := gs ""
  post := gs ""
  camera := [⟨gs "064_2025-01-01_10-00-00.fts", false⟩,
             ⟨gs "064_2025-01-01_10-00-05.fts", false⟩,
             ⟨gs "064_2025-01-01_09-59-55.fts", false⟩]
  dt := ⟨2025, 1, 1, 12, 0, 0⟩
  chdirOk := true
  createOkF := fun _ => true
  integrityOkF := fun _ => false
  uploadResp := fun _ => some 200
  deleteOkF := fun _ => true
  moveOkF := fun _ _ => true

/-- The path of the archive that `integrityFailEnv`'s single iteration
creates in the temp directory and abandons after the failed integrity
test. -/
def corruptArchive : GoStr :=
  goJoin (gs "tmp") (mkArchiveBasename (gs "") (gs "064") ⟨2025, 1, 1, 12, 0, 0⟩ (gs "") (gs ".zip"))

/-- Variant of `integrityFailEnv` with a healthy archiver but a server answering
HTTP 500 to every upload. -/
def httpFailEnv : Env :=
  { integrityFailEnv with
      integrityOkF := fun _ => true
      uploadResp := fun _ => some 500 }

/-! ## Concrete sanity evaluations -/

example : regexMatch (gs "064") (gs ".fts") (gs "064_2025-01-01_10-00-00.fts") = true := by decide
example : regexMatch (gs "064") (gs ".fts") (gs "064_a.fts.bak") = true := by decide
example : regexMatch (gs "064") (gs ".fts") (gs "065_a.fts") = false := by decide
example : regexMatch (gs "064") (gs ".fts") (gs "064-SF_a.fts") = true := by decide
example : sortByNamePart (gs "cam/064_2025-01-01_10-00-00.fts") = gs "2025-01-01_10-00-00" := by decide
example : sortByNamePartPanics (gs "a.b_c") = true := by decide

example :
    mkArchiveBasename (gs "CI_") (gs "064") ⟨2025, 1, 2, 9, 59, 55⟩ (gs "_T") (gs ".zip")
      = gs "2025-01-02_CI_064_095955_T.zip" := by decide
example :
    sortByArchiveName (gs ".zip") (gs "_T") (gs "tmp/2025-01-02_CI_064_095955_T.zip")
      = gs "20250102095955" := by decide
example :
    sortByArchiveName (gs ".zip") (gs "") (gs "2025-01-02_064_095955.zip")
      = gs "20250102095955" := by decide

/-! ## Order properties of the Go string comparison -/

theorem goStrLtB_asymm : ∀ a b : GoStr, goStrLtB a b = true → goStrLtB b a = false
  | [], [], h => by simp [goStrLtB] at h
  | [], _ :: _, _ => by simp [goStrLtB]
  | _ :: _, [], h => by simp [goStrLtB] at h
  | a :: as, b :: bs, h => by
    simp only [goStrLtB] at h ⊢
    by_cases h1 : a.toNat < b.toNat
    · rw [if_neg (by omega : ¬ b.toNat < a.toNat), if_pos h1]
    · by_cases h2 : b.toNat < a.toNat
      · rw [if_neg h1, if_pos h2] at h
        simp at h
      · rw [if_neg h1, if_neg h2] at h
        rw [if_neg h2, if_neg h1]
        exact goStrLtB_asymm as bs h

theorem goStrLtB_le_trans :
    ∀ a b c : GoStr, goStrLtB b a = false → goStrLtB c b = false → goStrLtB c a = false
  | [], _, c, _, _ => by cases c <;> simp [goStrLtB]
  | _ :: _, [], _, h1, _ => by simp [goStrLtB] at h1
  | _ :: _, _ :: _, [], _, h2 => by simp [goStrLtB] at h2
  | x :: xs, y :: ys, z :: zs, h1, h2 => by
    simp only [goStrLtB] at h1 h2 ⊢
    by_cases hyx : y.toNat < x.toNat
    · rw [if_pos hyx] at h1; simp at h1
    · by_cases hzy : z.toNat < y.toNat
      · rw [if_pos hzy] at h2; simp at h2
      · rw [if_neg (by omega : ¬ z.toNat < x.toNat)]
        by_cases hxz : x.toNat < z.toNat
        · rw [if_pos hxz]
        · rw [if_neg hxz]
          rw [if_neg hyx, if_neg (by omega : ¬ x.toNat < y.toNat)] at h1
          rw [if_neg hzy, if_neg (by omega : ¬ y.toNat < z.toNat)] at h2
          exact goStrLtB_le_trans xs ys zs h1 h2

instance (key : GoStr → GoStr) : IsTotal GoStr (leBy key) where
  total a b := by
    unfold leBy
    cases h : goStrLtB (key b) (key a) with
    | false => exact Or.inl rfl
    | true => exact Or.inr (goStrLtB_asymm _ _ h)

instance (key : GoStr → GoStr) : IsTrans GoStr (leBy key) where
  trans a b c h1 h2 := goStrLtB_le_trans (key a) (key b) (key c) h1 h2

/-! ## Index and basename lemmas -/

theorem firstIdx_eq_none {c : Char} : ∀ {s : GoStr}, c ∉ s → firstIdx s c = none
  | [], _ => rfl
  | d :: rest, h => by
    have hd : d ≠ c := fun hdc => h (hdc ▸ List.mem_cons_self d rest)
    have hr : c ∉ rest := fun hm => h (List.mem_cons_of_mem d hm)
    simp [firstIdx, hd, firstIdx_eq_none hr]

theorem lastIdx_eq_none {c : Char} : ∀ {s : GoStr}, c ∉ s → lastIdx s c = none
  | [], _ => rfl
  | d :: rest, h => by
    have hd : d ≠ c := fun hdc => h (hdc ▸ List.mem_cons_self d rest)
    have hr : c ∉ rest := fun hm => h (List.mem_cons_of_mem d hm)
    simp [lastIdx, hd, lastIdx_eq_none hr]

theorem firstIdx_append_cons (c : Char) :
    ∀ (x : GoStr), c ∉ x → ∀ y : GoStr, firstIdx (x ++ c :: y) c = some x.length
  | [], _, y => by simp [firstIdx]
  | d :: x, h, y => by
    have hd : d ≠ c := fun hdc => h (hdc ▸ List.mem_cons_self d x)
    have hx : c ∉ x := fun hm => h (List.mem_cons_of_mem d hm)
    simp [firstIdx, hd, firstIdx_append_cons c x hx y]

theorem lastIdx_append_cons (c : Char) :
    ∀ (x y : GoStr), c ∉ y → lastIdx (x ++ c :: y) c = some x.length
  | [], y, h => by simp [lastIdx, lastIdx_eq_none h]
  | d :: x, y, h => by
    simp [lastIdx, lastIdx_append_cons c x y h]

theorem firstIdx_append_left {c : Char} :
    ∀ {x : GoStr}, c ∈ x → ∀ y : GoStr, firstIdx (x ++ y) c = firstIdx x c
  | [], h, _ => absurd h (List.not_mem_nil c)
  | d :: x, h, y => by
    by_cases hd : d = c
    · simp [firstIdx, hd]
    · have hx : c ∈ x := by
        cases h with
        | head => exact absurd rfl hd
        | tail _ hm => exact hm
      simp [firstIdx, hd, firstIdx_append_left hx y]

theorem firstIdx_lt_length {c : Char} :
    ∀ {x : GoStr}, c ∈ x → ∃ i, firstIdx x c = some i ∧ i < x.length
  | [], h => absurd h (List.not_mem_nil c)
  | d :: x, h => by
    by_cases hd : d = c
    · exact ⟨0, by simp [firstIdx, hd], by simp⟩
    · have hx : c ∈ x := by
        cases h with
        | head => exact absurd rfl hd
        | tail _ hm => exact hm
      obtain ⟨i, hi, hlt⟩ := firstIdx_lt_length hx
      exact ⟨i + 1, by simp [firstIdx, hd, hi], by simp; omega⟩

theorem lastIdx_ge (c : Char) :
    ∀ (x y : GoStr), ∃ j, lastIdx (x ++ c :: y) c = some j ∧ x.length ≤ j
  | [], y => by
    cases hy : lastIdx y c with
    | none => exact ⟨0, by simp [lastIdx, hy], Nat.zero_le 0⟩
    | some i => exact ⟨i + 1, by simp [lastIdx, hy], Nat.zero_le _⟩
  | d :: x, y => by
    obtain ⟨j, hj, hge⟩ := lastIdx_ge c x y
    exact ⟨j + 1, by simp [lastIdx, hj], by simp; omega⟩

theorem stripTrailingSlashes_eq_self {s : GoStr}
    (h : ∀ c, s.getLast? = some c → c ≠ '/') : stripTrailingSlashes s = s := by
  unfold stripTrailingSlashes
  cases hr : s.reverse with
  | nil =>
    have : s = [] := by simpa using congrArg List.reverse hr
    simp [this]
  | cons c t =>
    have hc : c ≠ '/' := by
      apply h
      rw [← List.head?_reverse, hr]
      rfl
    rw [List.dropWhile_cons, if_neg (by simp [hc])]
    rw [← hr, List.reverse_reverse]

theorem goBase_join (dirPath name : GoStr) (h1 : name ≠ []) (h2 : '/' ∉ name) :
    goBase (dirPath ++ '/' :: name) = name := by
  have hsplit : dirPath ++ '/' :: name = (dirPath ++ ['/']) ++ name := by simp
  have hne : dirPath ++ '/' :: name ≠ [] := by simp
  unfold goBase
  rw [if_neg hne]
  have hstrip : stripTrailingSlashes (dirPath ++ '/' :: name) = dirPath ++ '/' :: name := by
    apply stripTrailingSlashes_eq_self
    intro c hc hcq
    rw [hsplit, List.getLast?_append_of_ne_nil _ h1] at hc
    obtain ⟨ys, hys⟩ := List.getLast?_eq_some_iff.mp hc
    exact h2 (hcq ▸ (hys ▸ List.mem_append_right ys (by simp)))
  rw [hstrip, if_neg hne, lastIdx_append_cons '/' dirPath name h2]
  show List.drop (dirPath.length + 1) (dirPath ++ '/' :: name) = name
  rw [hsplit]
  have hlen : dirPath.length + 1 = (dirPath ++ ['/']).length := by simp
  rw [hlen, List.drop_left]

theorem goBase_eq_self {s : GoStr} (h1 : s ≠ []) (h2 : '/' ∉ s) : goBase s = s := by
  unfold goBase
  rw [if_neg h1]
  have hstrip : stripTrailingSlashes s = s := by
    apply stripTrailingSlashes_eq_self
    intro c hc hcq
    obtain ⟨ys, hys⟩ := List.getLast?_eq_some_iff.mp hc
    exact h2 (hcq ▸ (hys ▸ List.mem_append_right ys (by simp)))
  rw [hstrip, if_neg h1, lastIdx_eq_none h2]

/-! ## Characterization of the locator's regular-expression match -/

theorem containsExtAfter_iff (ext : GoStr) :
    ∀ s : GoStr, containsExtAfter ext s = true
      ↔ ∃ mid rest, s = mid ++ ext ++ rest ∧ '\n' ∉ mid
  | [] => by
    simp only [containsExtAfter]
    constructor
    · intro h
      have : ext <+: ([] : GoStr) := List.isPrefixOf_iff_prefix.mp h
      obtain ⟨t, ht⟩ := this
      have hext : ext = [] := by
        cases ext with
        | nil => rfl
        | cons a b => simp at ht
      exact ⟨[], [], by simp [hext], by simp⟩
    · rintro ⟨mid, rest, hs, -⟩
      have hmid : mid = [] ∧ ext = [] := by
        constructor
        · cases mid with
          | nil => rfl
          | cons a b => simp at hs
        · cases mid with
          | nil =>
            cases ext with
            | nil => rfl
            | cons a b => simp at hs
          | cons a b => simp at hs
      simp [hmid.2, List.isPrefixOf_iff_prefix]
  | c :: s => by
    simp only [containsExtAfter]
    by_cases hp : List.isPrefixOf ext (c :: s)
    · rw [if_pos hp]
      simp only [true_iff]
      obtain ⟨t, ht⟩ := List.isPrefixOf_iff_prefix.mp hp
      exact ⟨[], t, by simp [ht.symm], by simp⟩
    · rw [if_neg hp]
      by_cases hc : c = '\n'
      · rw [if_pos hc]
        simp only [Bool.false_eq_true, false_iff]
        rintro ⟨mid, rest, hs, hn⟩
        cases mid with
        | nil =>
          exact hp (List.isPrefixOf_iff_prefix.mpr ⟨rest, by simp [hs]⟩)
        | cons m ms =>
          have : m = c := by simpa using congrArg (List.head? ·) hs.symm
          exact hn (by rw [← hc, ← this]; exact List.mem_cons_self m ms)
      · rw [if_neg hc]
        rw [containsExtAfter_iff ext s]
        constructor
        · rintro ⟨mid, rest, hs, hn⟩
          refine ⟨c :: mid, rest, by simp [hs], ?_⟩
          intro hmem
          cases hmem with
          | head => exact hc rfl
          | tail _ hm => exact hn hm
        · rintro ⟨mid, rest, hs, hn⟩
          cases mid with
          | nil =>
            exact absurd (List.isPrefixOf_iff_prefix.mpr ⟨rest, by simp [hs]⟩) hp
          | cons m ms =>
            have hmc : m = c := by simpa using congrArg (List.head? ·) hs.symm
            refine ⟨ms, rest, ?_, fun hm => hn (List.mem_cons_of_mem m hm)⟩
            have := congrArg List.tail hs
            simpa using this


theorem regexMatch_iff (area ext name : GoStr) :
    regexMatch area ext name = true ↔ matchSpec area ext name := by
  have l1 : (gs "_").length = 1 := rfl
  have l4 : (gs "-SF_").length = 4 := rfl
  have hlen1 : (area ++ gs "_").length = area.length + 1 := by
    rw [List.length_append, l1]
  have hlen4 : (area ++ gs "-SF_").length = area.length + 4 := by
    rw [List.length_append, l4]
  unfold regexMatch matchSpec
  simp only [Bool.or_eq_true, Bool.and_eq_true]
  constructor
  · rintro (⟨h1, h2⟩ | ⟨h1, h2⟩)
    · obtain ⟨u, hu⟩ := List.isPrefixOf_iff_prefix.mp h1
      have hdrop : name.drop (area.length + 1) = u := by
        rw [← hu, ← hlen1, List.drop_left]
      rw [hdrop] at h2
      obtain ⟨mid, rest, hmr, hn⟩ := (containsExtAfter_iff ext u).mp h2
      exact ⟨gs "_", mid, rest, Or.inl rfl, by rw [← hu, hmr]; simp, hn⟩
    · obtain ⟨u, hu⟩ := List.isPrefixOf_iff_prefix.mp h1
      have hdrop : name.drop (area.length + 4) = u := by
        rw [← hu, ← hlen4, List.drop_left]
      rw [hdrop] at h2
      obtain ⟨mid, rest, hmr, hn⟩ := (containsExtAfter_iff ext u).mp h2
      exact ⟨gs "-SF_", mid, rest, Or.inr rfl, by rw [← hu, hmr]; simp, hn⟩
  · rintro ⟨sep, mid, rest, hsep | hsep, hname, hn⟩
    · subst hsep
      left
      have h2 : name = (area ++ gs "_") ++ (mid ++ (ext ++ rest)) := by
        rw [hname]; simp
      refine ⟨List.isPrefixOf_iff_prefix.mpr ⟨mid ++ (ext ++ rest), h2.symm⟩, ?_⟩
      rw [h2, ← hlen1, List.drop_left]
      exact (containsExtAfter_iff ext _).mpr ⟨mid, rest, by simp, hn⟩
    · subst hsep
      right
      have h2 : name = (area ++ gs "-SF_") ++ (mid ++ (ext ++ rest)) := by
        rw [hname]; simp
      refine ⟨List.isPrefixOf_iff_prefix.mpr ⟨mid ++ (ext ++ rest), h2.symm⟩, ?_⟩
      rw [h2, ← hlen4, List.drop_left]
      exact (containsExtAfter_iff ext _).mpr ⟨mid, rest, by simp, hn⟩

/-- C4 counterexample: the locator pattern is not anchored at the end of
the name, so the non-directory file `064_a.fts.bak` — whose name does NOT
end in `.fts` — IS returned by `fileBrowser` for area `064`, contradicting
the claim that a file with extra characters after the extension is never
returned. -/
theorem fileBrowser_trailing_chars_counterexample :
    List.isSuffixOf (gs ".fts") (gs "064_a.fts.bak") = false
    ∧ goJoin (gs "cam") (gs "064_a.fts.bak")
        ∈ fileBrowser (gs "064") (gs "cam") (gs ".fts")
          [⟨gs "064_a.fts.bak", false⟩] := by
  constructor
  · decide
  · decide

/-- C4 (amended): a directory entry is returned by `fileBrowser` iff it is
not a directory and its basename begins with the area token followed by
`_` or `-SF_` and CONTAINS the extension (with no intervening newline)
somewhere after that point — the extension need not be at the end of the
name, because the Go pattern `^area(_|-SF_).*ext` has no `$` anchor. -/
theorem fileBrowser_mem_iff (area dir ext : GoStr) (entries : List DirEntry) (x : GoStr) :
    x ∈ fileBrowser area dir ext entries
      ↔ ∃ e ∈ entries, e.isDir = false ∧ matchSpec area ext e.name
          ∧ x = goJoin dir e.name := by
  unfold fileBrowser
  simp only [List.mem_map, List.mem_filter, Bool.and_eq_true, Bool.not_eq_true']
  constructor
  · rintro ⟨e, ⟨he, hdir, hmatch⟩, hx⟩
    exact ⟨e, he, hdir, (regexMatch_iff area ext e.name).mp hmatch, hx.symm⟩
  · rintro ⟨e, he, hdir, hmatch, hx⟩
    exact ⟨e, ⟨he, hdir, (regexMatch_iff area ext e.name).mpr hmatch⟩, hx.symm⟩

/-- C10: on every `/`-free name accepted by the locator pattern (with a
dot-initial extension, as every detected FITS extension is), the slice
bounds of `sortByNamePart` are valid — the last `.` falls strictly after
the first `_` — so the Go code cannot panic there; and on any string
whose last `.` precedes its first `_`, the slice `filename[pos+1:lastDot]`
is out of bounds (`sortByNamePartPanics` is precisely Go's slice-bounds
violation condition). -/
theorem sortByNamePart_slice_safety :
    (∀ area extTail name, '/' ∉ name → matchSpec area ('.' :: extTail) name →
        sortByNamePartPanics name = false)
    ∧ (∀ (s : GoStr) (i j : Nat), '/' ∉ s → firstIdx s '_' = some i →
        lastIdx s '.' = some j → j < i → sortByNamePartPanics s = true) := by
  constructor
  · intro area extTail name hslash hmatch
    obtain ⟨sep, mid, rest, hsep, hname, -⟩ := hmatch
    have hsepu : '_' ∈ sep := by rcases hsep with h | h <;> subst h <;> decide
    have hdot : '.' ∈ name := by
      rw [hname]; simp
    have hne : name ≠ [] := List.ne_nil_of_mem hdot
    have hname2 : name = (area ++ sep ++ mid) ++ '.' :: (extTail ++ rest) := by
      rw [hname]; simp
    have hname3 : name = (area ++ sep) ++ (mid ++ ('.' :: extTail ++ rest)) := by
      rw [hname]; simp
    obtain ⟨j, hj, hjge⟩ := lastIdx_ge '.' (area ++ sep ++ mid) (extTail ++ rest)
    have hmem : '_' ∈ area ++ sep := List.mem_append_right area hsepu
    obtain ⟨i, hi, hilt⟩ := firstIdx_lt_length hmem
    have hfirst : firstIdx name '_' = some i := by
      rw [hname3, firstIdx_append_left hmem]
      exact hi
    have hlast : lastIdx name '.' = some j := by
      rw [hname2]
      exact hj
    unfold sortByNamePartPanics
    rw [goBase_eq_self hne hslash, hfirst, hlast]
    simp only [decide_eq_false_iff_not]
    simp only [List.length_append] at hilt hjge
    omega
  · intro s i j hslash hfi hlj hlt
    have hne : s ≠ [] := by
      intro h
      subst h
      simp [firstIdx] at hfi
    unfold sortByNamePartPanics
    rw [goBase_eq_self hne hslash, hfi, hlj]
    simp only [decide_eq_true_eq]
    omega

/-- Witness for `sortByNamePart_slice_safety`: the locator-accepted name
`064_a.fts` cannot make `sortByNamePart` panic, while the string `a.b_c`
(last `.` before first `_`) hits the out-of-bounds slice. -/
theorem sortByNamePart_slice_safety_witness :
    sortByNamePartPanics (gs "064_a.fts") = false
    ∧ sortByNamePartPanics (gs "a.b_c") = true :=
  ⟨sortByNamePart_slice_safety.1 (gs "064") (gs "fts") (gs "064_a.fts") (by decide)
      ⟨gs "_", gs "a", [], Or.inl rfl, by decide, by decide⟩,
   sortByNamePart_slice_safety.2 (gs "a.b_c") 3 1 (by decide) (by decide) (by decide)
      (by decide)⟩

theorem goBase_goAbs_join (cwd dir nm : GoStr) (h1 : nm ≠ []) (h2 : '/' ∉ nm) :
    goBase (goAbs cwd (goJoin dir nm)) = nm := by
  unfold goAbs goJoin
  by_cases hh : (dir ++ '/' :: nm).head? = some '/'
  · rw [if_pos hh]
    exact goBase_join dir nm h1 h2
  · rw [if_neg hh]
    have hassoc : cwd ++ '/' :: (dir ++ '/' :: nm) = (cwd ++ '/' :: dir) ++ '/' :: nm := by
      simp
    rw [hassoc]
    exact goBase_join _ nm h1 h2

/-- Every path the locator returns is the directory joined with the name
of one of the listed entries. -/
theorem fileBrowser_shape {area dir ext : GoStr} {entries : List DirEntry} {x : GoStr}
    (h : x ∈ fileBrowser area dir ext entries) :
    ∃ e ∈ entries, x = goJoin dir e.name := by
  unfold fileBrowser at h
  simp only [List.mem_map, List.mem_filter] at h
  obtain ⟨e, ⟨he, -⟩, hx⟩ := h
  exact ⟨e, he, hx.symm⟩

/-- C9: in every `FileGroup` built by `getImageFiles` (over genuine
directory entries, whose names are nonempty and slash-free), the archive
member list and the relocation list are aligned: equal lengths, and the
i-th archive member name is exactly the basename of the i-th absolute
path to relocate. -/
theorem fileGroup_basename_alignment (area dir ext cwd : GoStr) (count : Nat)
    (entries : List DirEntry)
    (hents : ∀ e ∈ entries, e.name ≠ [] ∧ '/' ∉ e.name) :
    (getImageFiles area dir ext cwd count entries).FilesToArchive.length
      = (getImageFiles area dir ext cwd count entries).FilesToDelete.length
    ∧ ∀ i : Nat,
        (getImageFiles area dir ext cwd count entries).FilesToArchive[i]?
          = ((getImageFiles area dir ext cwd count entries).FilesToDelete[i]?).map goBase := by
  unfold getImageFiles
  constructor
  · simp
  · intro i
    simp only [List.getElem?_map]
    set files := (fileBrowser area dir ext entries).insertionSort (leBy sortByNamePart)
      with hfdef
    set chosen := files.take (min count files.length) with hcdef
    cases hx : chosen[i]? with
    | none => rfl
    | some p =>
      simp only [Option.map_some']
      have hp : p ∈ chosen := by
        obtain ⟨hlt, hget⟩ := List.getElem?_eq_some_iff.mp hx
        exact hget ▸ List.getElem_mem hlt
      have hp2 : p ∈ files := List.take_subset _ _ hp
      have hp3 : p ∈ fileBrowser area dir ext entries := by
        rw [hfdef] at hp2
        exact (List.mem_insertionSort _).mp hp2
      obtain ⟨e, he, hpe⟩ := fileBrowser_shape hp3
      obtain ⟨hne, hns⟩ := hents e he
      subst hpe
      rw [goBase_goAbs_join cwd dir e.name hne hns]
      unfold goJoin
      rw [goBase_join dir e.name hne hns]

/-- Witness for `fileGroup_basename_alignment` at a concrete listing. -/
theorem fileGroup_basename_alignment_witness :
    ((getImageFiles (gs "064") (gs "cam") (gs ".fts") (gs "/w") 3
        [⟨gs "064_a.fts", false⟩]).FilesToArchive.length
      = (getImageFiles (gs "064") (gs "cam") (gs ".fts") (gs "/w") 3
        [⟨gs "064_a.fts", false⟩]).FilesToDelete.length)
    ∧ (getImageFiles (gs "064") (gs "cam") (gs ".fts") (gs "/w") 3
        [⟨gs "064_a.fts", false⟩]).FilesToArchive[0]?
      = ((getImageFiles (gs "064") (gs "cam") (gs ".fts") (gs "/w") 3
        [⟨gs "064_a.fts", false⟩]).FilesToDelete[0]?).map goBase :=
  ⟨(fileGroup_basename_alignment (gs "064") (gs "cam") (gs ".fts") (gs "/w") 3
      [⟨gs "064_a.fts", false⟩] (by decide)).1,
   (fileGroup_basename_alignment (gs "064") (gs "cam") (gs ".fts") (gs "/w") 3
      [⟨gs "064_a.fts", false⟩] (by decide)).2 0⟩

/-- C1 counterexample: with batch size 3 and only two matching files in
the camera directory, `getImageFiles` does NOT return an empty result —
it returns a partial batch of 2 files, contradicting the claim that it
returns empty whenever fewer than batch-size matching files exist.  (The
running pipeline avoids this only because `makeJobForAreas` guards the
call; see the amended theorem.) -/
theorem getImageFiles_partial_batch_counterexample :
    (getImageFiles (gs "064") (gs "cam") (gs ".fts") (gs "/w") 3
        [⟨gs "064_a.fts", false⟩, ⟨gs "064_b.fts", false⟩]).FilesToArchive.length = 2
    ∧ (getImageFiles (gs "064") (gs "cam") (gs ".fts") (gs "/w") 3
        [⟨gs "064_a.fts", false⟩, ⟨gs "064_b.fts", false⟩]).FilesToArchive ≠ [] := by
  constructor
  · decide
  · decide

/-! ## Pipeline theorems -/

/-- C3: in `makeJobForArchive`, `deleteFile` is invoked on the archive iff
`uploadFile` succeeded; `uploadFile` succeeds iff the HTTP status is in
the 2xx range (a transport error or any other status is a failure); and
after a failed upload the archive is still in the temp directory. -/
theorem upload_delete_contract (env : Env) (st : St) (f : GoStr) :
    (Act.delete f ∈ (makeJobForArchiveM env st f).2
      ↔ uploadResultOk (env.uploadResp f) = true)
    ∧ (uploadResultOk (env.uploadResp f) = true
      ↔ ∃ c, env.uploadResp f = some c ∧ 200 ≤ c ∧ c < 300)
    ∧ (uploadResultOk (env.uploadResp f) = false → f ∈ st.temp →
        f ∈ ((makeJobForArchiveM env st f).1).temp) := by
  refine ⟨?_, ?_, ?_⟩
  · by_cases hok : uploadResultOk (env.uploadResp f) = true
    · have hu : uploadFileM env st f = (st, [Act.upload f], true) := by
        unfold uploadFileM; rw [if_pos hok]
      unfold makeJobForArchiveM
      rw [hu]
      unfold deleteFileM
      split <;> simp [hok]
      all_goals first
      | (split <;> simp)
      | simp_all
    · unfold makeJobForArchiveM uploadFileM
      rw [if_neg hok]
      split <;> simp [hok]
  · unfold uploadResultOk
    cases hr : env.uploadResp f with
    | none => simp
    | some c =>
      simp only [Bool.and_eq_true, decide_eq_true_eq]
      constructor
      · rintro ⟨h1, h2⟩
        exact ⟨c, rfl, h1, h2⟩
      · rintro ⟨d, hd, h1, h2⟩
        cases hd
        exact ⟨h1, h2⟩
  · intro hfail hmem
    unfold makeJobForArchiveM uploadFileM
    rw [hfail]
    simp only [Bool.false_eq_true, if_false]
    split <;> exact hmem

/-- Witness for `upload_delete_contract`: with a server answering 500,
the archive survives `makeJobForArchive` in the temp directory. -/
theorem upload_delete_contract_witness :
    uploadResultOk (httpFailEnv.uploadResp corruptArchive) = false
    ∧ corruptArchive ∈ (St.mk [corruptArchive] none).temp
    ∧ corruptArchive
        ∈ ((makeJobForArchiveM httpFailEnv ⟨[corruptArchive], none⟩ corruptArchive).1).temp :=
  ⟨by decide, by decide,
   (upload_delete_contract httpFailEnv ⟨[corruptArchive], none⟩ corruptArchive).2.2
     (by decide) (by decide)⟩

/-- C8: `moveImages` never returns failure in production mode, for any
input and any pattern of per-file failures; the second attempt re-tries
exactly the files that failed the first, after a 3-second sleep; there is
no third attempt; and only in test mode does a remaining failure exit the
process (with code 1). -/
theorem moveImages_production_policy (env : Env) (files : List GoStr) :
    (env.testMode = false → (moveImagesM env files).2 = none)
    ∧ (∀ f, Act.moveTry 2 f ∈ (moveImagesM env files).1
        ↔ f ∈ files.filter (fun g => !env.moveOkF 1 g))
    ∧ ((Act.sleepA 3 ∈ (moveImagesM env files).1)
        ↔ files.filter (fun g => !env.moveOkF 1 g) ≠ [])
    ∧ (env.testMode = true →
        (files.filter (fun g => !env.moveOkF 1 g)).filter (fun g => !env.moveOkF 2 g) ≠ [] →
        (moveImagesM env files).2 = some 1)
    ∧ (∀ k f, Act.moveTry k f ∈ (moveImagesM env files).1 → k = 1 ∨ k = 2) := by
  have hiff : ∀ f, f ∈ files.filter (fun g => !env.moveOkF 1 g)
      ↔ f ∈ files.filter (fun g => !env.moveOkF 1 g) := fun _ => Iff.rfl
  by_cases h1 : files.filter (fun g => !env.moveOkF 1 g) = []
  · refine ⟨?_, ?_, ?_, ?_, ?_⟩
    · intro _
      unfold moveImagesM
      rw [if_pos h1]
    · intro f
      unfold moveImagesM
      rw [if_pos h1, h1]
      simp
    · unfold moveImagesM
      rw [if_pos h1, h1]
      simp
    · intro _ hfail
      rw [h1] at hfail
      simp at hfail
    · intro k f
      unfold moveImagesM
      rw [if_pos h1]
      intro hmem
      simp only [List.mem_map] at hmem
      obtain ⟨a, -, ha⟩ := hmem
      simp only [Act.moveTry.injEq] at ha
      exact Or.inl ha.1.symm
  · by_cases h2 : (files.filter (fun g => !env.moveOkF 1 g)).filter
        (fun g => !env.moveOkF 2 g) = []
    · refine ⟨?_, ?_, ?_, ?_, ?_⟩
      · intro _
        unfold moveImagesM
        rw [if_neg h1, if_pos h2]
      · intro f
        unfold moveImagesM
        rw [if_neg h1, if_pos h2]
        simp
      · unfold moveImagesM
        rw [if_neg h1, if_pos h2]
        simp [h1]
      · intro _ hfail
        exact absurd h2 hfail
      · intro k f
        unfold moveImagesM
        rw [if_neg h1, if_pos h2]
        intro hmem
        simp only [List.mem_append, List.mem_map, List.mem_cons] at hmem
        rcases hmem with ⟨a, -, ha⟩ | hs | ⟨a, -, ha⟩
        · simp only [Act.moveTry.injEq] at ha
          exact Or.inl ha.1.symm
        · exact absurd hs (by simp)
        · simp only [Act.moveTry.injEq] at ha
          exact Or.inr ha.1.symm
    · have hbody : moveImagesM env files
        = (files.map (Act.moveTry 1)
            ++ Act.sleepA 3 :: (files.filter (fun g => !env.moveOkF 1 g)).map (Act.moveTry 2)
            ++ (if env.testMode then [Act.exitProc 1]
                else [Act.warnMove ((files.filter (fun g => !env.moveOkF 1 g)).filter
                  (fun g => !env.moveOkF 2 g))]),
           if env.testMode then some 1 else none) := by
        unfold moveImagesM
        rw [if_neg h1, if_neg h2]
        by_cases ht : env.testMode
        · rw [if_pos ht, if_pos ht, if_pos ht]
        · rw [if_neg ht, if_neg ht, if_neg ht]
      refine ⟨?_, ?_, ?_, ?_, ?_⟩
      · intro h
        rw [hbody]
        simp [h]
      · intro f
        rw [hbody]
        cases htm : env.testMode <;> simp [htm]
      · rw [hbody]
        cases htm : env.testMode <;> simp [htm, h1]
      · intro h _
        rw [hbody]
        simp [h]
      · intro k f hmem
        rw [hbody] at hmem
        split at hmem <;>
          · simp only [List.mem_append, List.mem_cons, List.mem_map, List.mem_singleton,
              Act.moveTry.injEq] at hmem
            rcases hmem with (h | hs | h) | hbad
            · obtain ⟨a, -, hk, -⟩ := h
              exact Or.inl hk.symm
            · simp at hs
            · obtain ⟨a, -, hk, -⟩ := h
              exact Or.inr hk.symm
            · simp at hbad

/-- Witness for `moveImages_production_policy`: in the concrete
production environment every conjunct instantiates. -/
theorem moveImages_production_policy_witness :
    (moveImagesM integrityFailEnv [gs "/a"]).2 = none
    ∧ (Act.moveTry 2 (gs "/a") ∈ (moveImagesM integrityFailEnv [gs "/a"]).1
        ↔ gs "/a" ∈ [gs "/a"].filter (fun g => !integrityFailEnv.moveOkF 1 g)) :=
  ⟨(moveImages_production_policy integrityFailEnv [gs "/a"]).1 (by decide),
   (moveImages_production_policy integrityFailEnv [gs "/a"]).2.1 (gs "/a")⟩

/-- C2 counterexample: run one full production iteration of the pipeline
in `integrityFailEnv` (integrity test fails, server healthy).  Within
that iteration the corrupt archive is neither uploaded nor deleted and is
left in the temp directory — but the NEXT iteration's re-delivery scan
(`makeJobForArchives`) globs it back up, uploads it, and deletes it after
the 2xx response, contradicting the claim that no later operation ever
invokes `uploadFile` or `deleteFile` on an integrity-failed archive. -/
theorem integrity_failed_archive_redelivered_counterexample :
    (Act.upload corruptArchive ∉ (programLoopM integrityFailEnv ⟨[], none⟩).2)
    ∧ (Act.delete corruptArchive ∉ (programLoopM integrityFailEnv ⟨[], none⟩).2)
    ∧ corruptArchive ∈ ((programLoopM integrityFailEnv ⟨[], none⟩).1).temp
    ∧ Act.upload corruptArchive
        ∈ (makeJobForArchivesM integrityFailEnv
            (programLoopM integrityFailEnv ⟨[], none⟩).1).2
    ∧ Act.delete corruptArchive
        ∈ (makeJobForArchivesM integrityFailEnv
            (programLoopM integrityFailEnv ⟨[], none⟩).1).2 := by
  refine ⟨?_, ?_, ?_, ?_, ?_⟩ <;> decide

/-- C2 (amended): within the iteration in which the integrity test fails,
the archive is neither uploaded nor deleted — `packImagesForArea` returns
`ERROR`, `makeJobForArea` stops, and the archive file stays in the temp
directory (in production mode); in test mode the failure exits the
process with code 1.  The archive is only abandoned for that iteration:
the next iteration's re-delivery scan picks it up again (see the
counterexample). -/
theorem integrity_fail_abandons_archive_in_iteration (env : Env) (st : St) (area : GoStr)
    (hchdir : env.chdirOk = true)
    (hcreate : env.createOkF (plannedArchive env area) = true)
    (hint : env.integrityOkF (plannedArchive env area) = false)
    (hfg : (getImageFiles area env.cameraDir env.fitsExt env.cwd env.count
        env.camera).FilesToArchive ≠ []) :
    (env.testMode = false →
      Act.upload (plannedArchive env area) ∉ (makeJobForAreaM env st area).2
      ∧ Act.delete (plannedArchive env area) ∉ (makeJobForAreaM env st area).2
      ∧ plannedArchive env area ∈ ((makeJobForAreaM env st area).1).temp)
    ∧ (env.testMode = true → ((makeJobForAreaM env st area).1).exited = some 1) := by
  constructor
  · intro htm
    have hp : packImagesForAreaM env st area
        = ({ st with temp := st.temp ++ [plannedArchive env area] },
            [Act.sleepA 5], .errRes) := by
      unfold packImagesForAreaM
      rw [if_neg hfg, if_neg (by simp [hchdir]), if_neg (by simp [hcreate]),
        if_pos hint, if_neg (by simp [htm])]
    unfold makeJobForAreaM
    rw [hp]
    refine ⟨by simp, by simp, by simp⟩
  · intro htm
    have hp : packImagesForAreaM env st area
        = ({ st with temp := st.temp ++ [plannedArchive env area], exited := some 1 },
            [Act.sleepA 5, Act.exitProc 1], .errRes) := by
      unfold packImagesForAreaM
      rw [if_neg hfg, if_neg (by simp [hchdir]), if_neg (by simp [hcreate]),
        if_pos hint, if_pos htm]
    unfold makeJobForAreaM
    rw [hp]

/-- Witness for `integrity_fail_abandons_archive_in_iteration` in the
concrete environment `integrityFailEnv`. -/
theorem integrity_fail_abandons_archive_in_iteration_witness :
    Act.upload (plannedArchive integrityFailEnv (gs "064"))
        ∉ (makeJobForAreaM integrityFailEnv ⟨[], none⟩ (gs "064")).2
    ∧ Act.delete (plannedArchive integrityFailEnv (gs "064"))
        ∉ (makeJobForAreaM integrityFailEnv ⟨[], none⟩ (gs "064")).2
    ∧ plannedArchive integrityFailEnv (gs "064")
        ∈ ((makeJobForAreaM integrityFailEnv ⟨[], none⟩ (gs "064")).1).temp :=
  (integrity_fail_abandons_archive_in_iteration integrityFailEnv ⟨[], none⟩ (gs "064")
    (by decide) (by decide) (by decide) (by decide)).1 (by decide)

/-! ## Production mode never exits, and area-scan trace lemmas -/

theorem moveImagesM_no_exit (env : Env) (h : env.testMode = false) (files : List GoStr) :
    (moveImagesM env files).2 = none := by
  unfold moveImagesM
  split
  · rfl
  · split
    · rfl
    · rw [if_neg (by simp [h])]

theorem uploadFileM_exited (env : Env) (st : St) (f : GoStr) (h : env.testMode = false) :
    ((uploadFileM env st f).1).exited = st.exited := by
  unfold uploadFileM
  split
  · rfl
  · rw [if_neg (by simp [h])]

theorem deleteFileM_exited (env : Env) (st : St) (f : GoStr) :
    ((deleteFileM env st f).1).exited = st.exited := by
  unfold deleteFileM
  split <;> rfl

theorem makeJobForArchiveM_exited (env : Env) (st : St) (f : GoStr)
    (h : env.testMode = false) :
    ((makeJobForArchiveM env st f).1).exited = st.exited := by
  unfold makeJobForArchiveM
  split
  · rw [deleteFileM_exited, uploadFileM_exited env st f h]
  · rw [uploadFileM_exited env st f h]

theorem packImagesForAreaM_exited (env : Env) (st : St) (area : GoStr)
    (h : env.testMode = false) :
    ((packImagesForAreaM env st area).1).exited = st.exited := by
  unfold packImagesForAreaM
  split
  · rfl
  · split
    · rw [if_neg (by simp [h])]
    · split
      · rw [if_neg (by simp [h])]
      · split
        · rw [if_neg (by simp [h])]
        · rw [moveImagesM_no_exit env h]

theorem makeJobForAreaM_exited (env : Env) (st : St) (area : GoStr)
    (h : env.testMode = false) :
    ((makeJobForAreaM env st area).1).exited = st.exited := by
  unfold makeJobForAreaM
  cases hres : (packImagesForAreaM env st area).2.2 with
  | emptyRes => rw [packImagesForAreaM_exited env st area h]
  | errRes => rw [packImagesForAreaM_exited env st area h]
  | okRes name =>
    rw [makeJobForArchiveM_exited env _ name h, packImagesForAreaM_exited env st area h]

theorem processArea_notin_moveImagesM (env : Env) (files : List GoStr) (a : GoStr) :
    Act.processArea a ∉ (moveImagesM env files).1 := by
  unfold moveImagesM
  split
  · simp
  · split
    · simp
    · split <;> simp

theorem processArea_notin_makeJobForArchiveM (env : Env) (st : St) (f a : GoStr) :
    Act.processArea a ∉ (makeJobForArchiveM env st f).2 := by
  unfold makeJobForArchiveM uploadFileM deleteFileM
  repeat' split
  all_goals simp

theorem processArea_notin_packImagesForAreaM (env : Env) (st : St) (area a : GoStr) :
    Act.processArea a ∉ (packImagesForAreaM env st area).2.1 := by
  unfold packImagesForAreaM
  repeat' split
  all_goals simp [processArea_notin_moveImagesM]

theorem processArea_notin_makeJobForAreaM (env : Env) (st : St) (area a : GoStr) :
    Act.processArea a ∉ (makeJobForAreaM env st area).2 := by
  unfold makeJobForAreaM
  cases hres : (packImagesForAreaM env st area).2.2 with
  | emptyRes => exact processArea_notin_packImagesForAreaM env st area a
  | errRes => exact processArea_notin_packImagesForAreaM env st area a
  | okRes name =>
    simp [processArea_notin_packImagesForAreaM,
      processArea_notin_makeJobForArchiveM]

theorem areaJobs_processArea_iff (env : Env) (h : env.testMode = false) :
    ∀ (areas : List GoStr) (st : St) (a : GoStr), st.exited = none →
      (Act.processArea a ∈ (areaJobs env st areas).2
        ↔ a ∈ areas
          ∧ env.count ≤ (fileBrowser a env.cameraDir env.fitsExt env.camera).length)
  | [], st, a, hst => by simp [areaJobs]
  | x :: rest, st, a, hst => by
    unfold areaJobs
    rw [if_neg (by simp [hst])]
    by_cases hx : env.count ≤ (fileBrowser x env.cameraDir env.fitsExt env.camera).length
    · rw [if_pos hx]
      have hst1 : ((makeJobForAreaM env st x).1).exited = none := by
        rw [makeJobForAreaM_exited env st x h, hst]
      simp only [List.mem_cons, List.mem_append]
      constructor
      · rintro (hhd | hin | hrec)
        · have hax : a = x := by
            simpa using hhd
          exact ⟨Or.inl hax, by rw [hax]; exact hx⟩
        · exact absurd hin (processArea_notin_makeJobForAreaM env st x a)
        · obtain ⟨hmem, hlen⟩ :=
            (areaJobs_processArea_iff env h rest (makeJobForAreaM env st x).1 a hst1).mp hrec
          exact ⟨Or.inr hmem, hlen⟩
      · rintro ⟨hmem | hmem, hlen⟩
        · exact Or.inl (by rw [hmem])
        · exact Or.inr (Or.inr
            ((areaJobs_processArea_iff env h rest (makeJobForAreaM env st x).1 a hst1).mpr
              ⟨hmem, hlen⟩))
    · rw [if_neg hx]
      rw [areaJobs_processArea_iff env h rest st a hst]
      constructor
      · rintro ⟨hmem, hlen⟩
        exact ⟨List.mem_cons_of_mem x hmem, hlen⟩
      · rintro ⟨hmem, hlen⟩
        cases hmem with
        | head => exact absurd hlen hx
        | tail _ hm => exact ⟨hm, hlen⟩

/-- C1 (amended): `getImageFiles` returns `min(Count, available)` files —
a partial batch when it is invoked with fewer than `Count` matching files
present — and the no-partial-batch guarantee lives one level up, in
`makeJobForAreas`: an area is processed (against an unchanged directory
listing) iff its matching-file count is at least `Config.Count`, and any
batch built under that guard has length exactly `Count`. -/
theorem batch_selection_guard (area dir ext cwd : GoStr) (count : Nat)
    (entries : List DirEntry) (env : Env) (st : St) (a : GoStr) :
    ((getImageFiles area dir ext cwd count entries).FilesToArchive.length
        = min count (fileBrowser area dir ext entries).length)
    ∧ (count ≤ (fileBrowser area dir ext entries).length →
        (getImageFiles area dir ext cwd count entries).FilesToArchive.length = count)
    ∧ (env.testMode = false → st.exited = none →
        (Act.processArea a ∈ (makeJobForAreasM env st).2
          ↔ a ∈ env.areas
            ∧ env.count ≤ (fileBrowser a env.cameraDir env.fitsExt env.camera).length)) := by
  have hlen : (getImageFiles area dir ext cwd count entries).FilesToArchive.length
      = min count (fileBrowser area dir ext entries).length := by
    unfold getImageFiles
    simp only [List.length_map, List.length_take, List.length_insertionSort]
    omega
  refine ⟨hlen, ?_, ?_⟩
  · intro hc
    rw [hlen]
    omega
  · intro htm hst
    exact areaJobs_processArea_iff env htm env.areas st a hst

/-- Witness for `batch_selection_guard` at the concrete three-file
environment: area `064` is processed because 3 files ≥ Count = 3, and the
built batch has exactly 3 members. -/
theorem batch_selection_guard_witness :
    ((getImageFiles (gs "064") (gs "cam") (gs ".fts") (gs "/w") 3
        integrityFailEnv.camera).FilesToArchive.length = 3)
    ∧ (Act.processArea (gs "064") ∈ (makeJobForAreasM integrityFailEnv ⟨[], none⟩).2
        ↔ gs "064" ∈ integrityFailEnv.areas
          ∧ integrityFailEnv.count
            ≤ (fileBrowser (gs "064") integrityFailEnv.cameraDir integrityFailEnv.fitsExt
                integrityFailEnv.camera).length) :=
  ⟨(batch_selection_guard (gs "064") (gs "cam") (gs ".fts") (gs "/w") 3
      integrityFailEnv.camera integrityFailEnv ⟨[], none⟩ (gs "064")).2.1 (by decide),
   (batch_selection_guard (gs "064") (gs "cam") (gs ".fts") (gs "/w") 3
      integrityFailEnv.camera integrityFailEnv ⟨[], none⟩ (gs "064")).2.2
     (by decide) (by decide)⟩

/-! ## Throttle-clock theorems -/

theorem waitForUploadThrottle_ge (s : UploadClock) (t : Nat)
    (hl : s.last = some t) (hinv : t ≤ s.now) :
    t + 120 ≤ (waitForUploadThrottle s).now ∧ s.now ≤ (waitForUploadThrottle s).now := by
  have hw : waitForUploadThrottle s
      = if s.now - t < 120 then { s with now := s.now + (120 - (s.now - t)) } else s := by
    unfold waitForUploadThrottle
    rw [hl]
  rw [hw]
  by_cases hc : s.now - t < 120
  · rw [if_pos hc]
    refine ⟨?_, ?_⟩
    · show t + 120 ≤ s.now + (120 - (s.now - t))
      omega
    · show s.now ≤ s.now + (120 - (s.now - t))
      omega
  · rw [if_neg hc]
    exact ⟨by omega, Nat.le_refl _⟩

theorem uploadAttempt_last (d1 d2 : Nat) (s : UploadClock) :
    (uploadAttempt d1 d2 s).last = some ((uploadAttempt d1 d2 s).now) := rfl

theorem uploadAttempt_gap (d1 d2 : Nat) (s : UploadClock) (t : Nat)
    (hl : s.last = some t) (hinv : t ≤ s.now) :
    t + 120 ≤ (uploadAttempt d1 d2 s).now := by
  have h := waitForUploadThrottle_ge { s with now := s.now + d1 } t hl
    (by show t ≤ s.now + d1; omega)
  show t + 120 ≤ (waitForUploadThrottle { s with now := s.now + d1 }).now + d2
  omega

theorem recordedTimes_chain : ∀ (ds : List (Nat × Nat)) (s : UploadClock), ClockInv s →
    List.Chain' (fun a b => a + 120 ≤ b) (recordedTimes ds s)
    ∧ ∀ t, s.last = some t → ∀ x ∈ (recordedTimes ds s).head?, t + 120 ≤ x
  | [], s, _ => ⟨List.chain'_nil, by intro t _ x hx; simp [recordedTimes] at hx⟩
  | d :: ds, s, hinv => by
    have hinv1 : ClockInv (uploadAttempt d.1 d.2 s) := by
      intro t ht
      have h2 := uploadAttempt_last d.1 d.2 s
      rw [h2] at ht
      exact Nat.le_of_eq (Option.some.inj ht).symm
    obtain ⟨hchain, hhead⟩ := recordedTimes_chain ds (uploadAttempt d.1 d.2 s) hinv1
    constructor
    · show List.Chain' _
        ((uploadAttempt d.1 d.2 s).now :: recordedTimes ds (uploadAttempt d.1 d.2 s))
      rw [List.chain'_cons']
      exact ⟨fun y hy => hhead _ (uploadAttempt_last d.1 d.2 s) y hy, hchain⟩
    · intro t ht x hx
      have hx2 : x = (uploadAttempt d.1 d.2 s).now := by
        have := hx
        simp [recordedTimes] at this
        exact this.symm
      rw [hx2]
      exact uploadAttempt_gap d.1 d.2 s t ht (hinv t ht)

/-- C5: for any sequence of upload attempts interleaved with arbitrary
ambient delays, consecutive recorded attempt-start times
(`lastUploadTime`) are at least 120 seconds apart; the first attempt of
the process is never delayed by the throttle (the clock advances only by
the ambient delays); and the recorded time is independent of the HTTP
outcome, because `lastUploadTime` is written before the network call. -/
theorem upload_throttle_invariant (ds : List (Nat × Nat)) (s0 : UploadClock)
    (h : s0.last = none) :
    List.Chain' (fun a b => a + 120 ≤ b) (recordedTimes ds s0)
    ∧ (∀ d1 d2, (uploadAttempt d1 d2 s0).now = s0.now + d1 + d2)
    ∧ (∀ resp d1 d2 s, (uploadAttemptR resp d1 d2 s).1 = uploadAttempt d1 d2 s) := by
  refine ⟨(recordedTimes_chain ds s0 ?_).1, ?_, ?_⟩
  · intro t ht
    rw [h] at ht
    cases ht
  · intro d1 d2
    show (waitForUploadThrottle { s0 with now := s0.now + d1 }).now + d2 = s0.now + d1 + d2
    unfold waitForUploadThrottle
    have hl : ({ s0 with now := s0.now + d1 } : UploadClock).last = none := h
    rw [hl]
  · intro resp d1 d2 s
    rfl

/-- Witness for `upload_throttle_invariant` on a concrete two-attempt run
starting from the process-startup clock. -/
theorem upload_throttle_invariant_witness :
    List.Chain' (fun a b => a + 120 ≤ b) (recordedTimes [(0, 0), (5, 7)] ⟨0, none⟩)
    ∧ (uploadAttempt 3 4 (⟨0, none⟩ : UploadClock)).now = 0 + 3 + 4 :=
  ⟨(upload_throttle_invariant [(0, 0), (5, 7)] ⟨0, none⟩ rfl).1,
   (upload_throttle_invariant [(0, 0), (5, 7)] ⟨0, none⟩ rfl).2.1 3 4⟩

/-! ## Image-ordering theorems -/

theorem sortByNamePart_eq_specKey (stem extTail name : GoStr)
    (hname : name = stem ++ '.' :: extTail) (hdot : '.' ∉ extTail)
    (hslash : '/' ∉ name) :
    sortByNamePart name = specNameKey ('.' :: extTail) name := by
  have hne : name ≠ [] := by rw [hname]; simp
  unfold sortByNamePart specNameKey
  rw [goBase_eq_self hne hslash]
  cases hfi : firstIdx name '_' with
  | none => rfl
  | some pos =>
    have hld : lastIdx name '.' = some stem.length := by
      rw [hname]
      exact lastIdx_append_cons '.' stem extTail hdot
    rw [hld]
    have hlen : name.length - ('.' :: extTail).length = stem.length := by
      rw [hname]
      simp
    rw [hlen]

/-- C6: the Locator+Selector orders located files ascending by the
`sortByNamePart` key; on every name that ends with the (dot-initial,
otherwise dot-free) extension this key is exactly the spec's "substring
after the first `_` with the trailing extension removed" (full basename
when no `_` occurs); and the three example timestamped files are selected
in chronological order from every one of the six possible directory
listing orders. -/
theorem locator_selector_ordering :
    (∀ l : List GoStr,
        List.Perm (l.insertionSort (leBy sortByNamePart)) l
        ∧ List.Sorted (leBy sortByNamePart) (l.insertionSort (leBy sortByNamePart)))
    ∧ (∀ stem extTail name : GoStr, name = stem ++ '.' :: extTail → '.' ∉ extTail →
        '/' ∉ name → sortByNamePart name = specNameKey ('.' :: extTail) name)
    ∧ chronoSelected [exEarly, exMid, exLate]
    ∧ chronoSelected [exEarly, exLate, exMid]
    ∧ chronoSelected [exMid, exEarly, exLate]
    ∧ chronoSelected [exMid, exLate, exEarly]
    ∧ chronoSelected [exLate, exEarly, exMid]
    ∧ chronoSelected [exLate, exMid, exEarly] := by
  refine ⟨?_, ?_, by decide, by decide, by decide, by decide, by decide, by decide⟩
  · intro l
    exact ⟨List.perm_insertionSort _ l, List.sorted_insertionSort _ l⟩
  · intro stem extTail name h1 h2 h3
    exact sortByNamePart_eq_specKey stem extTail name h1 h2 h3

/-- Witness for `locator_selector_ordering`: the key of `064_a.fts`
matches the spec's description at a concrete input. -/
theorem locator_selector_ordering_witness :
    sortByNamePart (gs "064_a.fts") = specNameKey ('.' :: gs "fts") (gs "064_a.fts") :=
  locator_selector_ordering.2.1 (gs "064_a") (gs "fts") (gs "064_a.fts")
    (by decide) (by decide) (by decide)

/-! ## Archive-name round-trip: digit and substring lemmas -/

theorem digitChar_digit_facts : ∀ a : Nat, a < 10 →
    48 ≤ (Nat.digitChar a).toNat ∧ (Nat.digitChar a).toNat ≤ 57
    ∧ Nat.digitChar a ≠ '-' ∧ Nat.digitChar a ≠ '_' ∧ Nat.digitChar a ≠ '/' := by
  decide

theorem digitChar_toNat_eq : ∀ a : Nat, a < 10 → (Nat.digitChar a).toNat = a + 48 := by
  decide

theorem pad2_props (n : Nat) : ∀ c ∈ pad2 n,
    48 ≤ c.toNat ∧ c.toNat ≤ 57 ∧ c ≠ '-' ∧ c ≠ '_' ∧ c ≠ '/' := by
  intro c hc
  unfold pad2 at hc
  simp only [List.mem_cons, List.not_mem_nil, or_false] at hc
  rcases hc with rfl | rfl
  · exact digitChar_digit_facts _ (Nat.mod_lt _ (by omega))
  · exact digitChar_digit_facts _ (Nat.mod_lt _ (by omega))

theorem pad4_props (n : Nat) : ∀ c ∈ pad4 n,
    48 ≤ c.toNat ∧ c.toNat ≤ 57 ∧ c ≠ '-' ∧ c ≠ '_' ∧ c ≠ '/' := by
  intro c hc
  unfold pad4 at hc
  simp only [List.mem_cons, List.not_mem_nil, or_false] at hc
  rcases hc with rfl | rfl | rfl | rfl <;>
    exact digitChar_digit_facts _ (Nat.mod_lt _ (by omega))

theorem pad2_no_special (n : Nat) : '-' ∉ pad2 n ∧ '_' ∉ pad2 n ∧ '/' ∉ pad2 n := by
  refine ⟨fun h => ?_, fun h => ?_, fun h => ?_⟩
  · exact (pad2_props n _ h).2.2.1 rfl
  · exact (pad2_props n _ h).2.2.2.1 rfl
  · exact (pad2_props n _ h).2.2.2.2 rfl

theorem pad4_no_special (n : Nat) : '-' ∉ pad4 n ∧ '_' ∉ pad4 n ∧ '/' ∉ pad4 n := by
  refine ⟨fun h => ?_, fun h => ?_, fun h => ?_⟩
  · exact (pad4_props n _ h).2.2.1 rfl
  · exact (pad4_props n _ h).2.2.2.1 rfl
  · exact (pad4_props n _ h).2.2.2.2 rfl

theorem underscore_notin_dateStr (dt : DateTime) : '_' ∉ dateStr dt := by
  unfold dateStr
  simp [(pad4_no_special _).2.1, (pad2_no_special _).2.1]

theorem underscore_notin_timeStr (dt : DateTime) : '_' ∉ timeStr dt := by
  unfold timeStr
  simp [(pad2_no_special _).2.1]

theorem lastSubstrIdx_len_lt :
    ∀ (t sub : GoStr), t.length < sub.length → lastSubstrIdx t sub = none
  | [], sub, h => by
    unfold lastSubstrIdx
    rw [if_neg]
    intro hsub
    rw [hsub] at h
    simp at h
  | c :: t, sub, h => by
    unfold lastSubstrIdx
    rw [lastSubstrIdx_len_lt t sub (by simp at h; omega)]
    rw [if_neg]
    intro hp
    have := (List.isPrefixOf_iff_prefix.mp hp).length_le
    omega

theorem lastSubstrIdx_append_self (sub : GoStr) (hne : sub ≠ []) :
    ∀ s : GoStr, lastSubstrIdx (s ++ sub) sub = some s.length
  | [] => by
    cases sub with
    | nil => exact absurd rfl hne
    | cons c rest =>
      show lastSubstrIdx (c :: rest) (c :: rest) = some 0
      unfold lastSubstrIdx
      rw [lastSubstrIdx_len_lt rest (c :: rest) (by simp)]
      rw [if_pos (List.isPrefixOf_iff_prefix.mpr (List.prefix_refl _))]
  | d :: s => by
    show lastSubstrIdx (d :: (s ++ sub)) sub = some (s.length + 1)
    unfold lastSubstrIdx
    rw [lastSubstrIdx_append_self sub hne s]

theorem stripExtName_append (sub : GoStr) (hne : sub ≠ []) (s : GoStr) :
    stripExtName sub (s ++ sub) = s := by
  unfold stripExtName
  rw [lastSubstrIdx_append_self sub hne s]
  exact List.take_left s sub

theorem stripPostName_append (post : GoStr) (hne : post ≠ []) (s : GoStr) :
    stripPostName post (s ++ post) = s := by
  unfold stripPostName
  rw [if_pos hne, lastSubstrIdx_append_self post hne s]
  exact List.take_left s post

theorem stripPostName_nil (f : GoStr) : stripPostName [] f = f := by
  unfold stripPostName
  simp

theorem dateTimeCriteria_eq (datePart mid timePart : GoStr)
    (hd : '_' ∉ datePart) (ht : '_' ∉ timePart) :
    dateTimeCriteria (datePart ++ '_' :: (mid ++ '_' :: timePart))
      = (datePart ++ '_' :: timePart).filter (fun c => c ≠ '-' && c ≠ '_') := by
  unfold dateTimeCriteria
  rw [firstIdx_append_cons '_' datePart hd (mid ++ '_' :: timePart)]
  have hre : datePart ++ '_' :: (mid ++ '_' :: timePart)
      = (datePart ++ '_' :: mid) ++ '_' :: timePart := by simp
  rw [hre, lastIdx_append_cons '_' (datePart ++ '_' :: mid) timePart ht]
  dsimp only
  rw [List.drop_left]
  have htake : ((datePart ++ '_' :: mid) ++ '_' :: timePart).take datePart.length
      = datePart := by
    rw [← hre]
    exact List.take_left' rfl
  rw [htake]

theorem filter_pad2 (n : Nat) :
    (pad2 n).filter (fun c => c ≠ '-' && c ≠ '_') = pad2 n := by
  rw [List.filter_eq_self]
  intro c hc
  have h := pad2_props n c hc
  simp [h.2.2.1, h.2.2.2.1]

theorem filter_pad4 (n : Nat) :
    (pad4 n).filter (fun c => c ≠ '-' && c ≠ '_') = pad4 n := by
  rw [List.filter_eq_self]
  intro c hc
  have h := pad4_props n c hc
  simp [h.2.2.1, h.2.2.2.1]

theorem filter_date_time (dt : DateTime) :
    (dateStr dt ++ '_' :: timeStr dt).filter (fun c => c ≠ '-' && c ≠ '_')
      = dtKey dt := by
  unfold dateStr timeStr dtKey
  simp only [List.filter_append, List.filter_cons, filter_pad2, filter_pad4]
  simp [List.append_assoc]

theorem slash_notin_name (pre area post ext : GoStr) (dt : DateTime)
    (hs1 : '/' ∉ pre) (hs2 : '/' ∉ area) (hs3 : '/' ∉ post) (hs4 : '/' ∉ ext) :
    '/' ∉ mkArchiveBasename pre area dt post ext := by
  unfold mkArchiveBasename dateStr timeStr
  simp [hs1, hs2, hs3, hs4, (pad4_no_special _).2.2, (pad2_no_special _).2.2]

theorem mkArchiveBasename_ne_nil (pre area post ext : GoStr) (dt : DateTime) :
    mkArchiveBasename pre area dt post ext ≠ [] := by
  unfold mkArchiveBasename dateStr pad4
  simp

/-- Model of `sortByArchiveName` exactly inverts the namer's format: applied to any
name the namer produced (with this extension and postfix configured), it
recovers the digits `YYYYMMDDHHMMSS`. -/
theorem sortByArchiveName_inverts (pre area post ext : GoStr) (dt : DateTime)
    (hext : ext ≠ [])
    (hs1 : '/' ∉ pre) (hs2 : '/' ∉ area) (hs3 : '/' ∉ post) (hs4 : '/' ∉ ext) :
    sortByArchiveName ext post (mkArchiveBasename pre area dt post ext) = dtKey dt := by
  unfold sortByArchiveName
  rw [goBase_eq_self (mkArchiveBasename_ne_nil pre area post ext dt)
    (slash_notin_name pre area post ext dt hs1 hs2 hs3 hs4)]
  have hshape : mkArchiveBasename pre area dt post ext
      = (dateStr dt ++ '_' :: (pre ++ area ++ '_' :: (timeStr dt ++ post))) ++ ext := by
    unfold mkArchiveBasename
    simp
  rw [hshape, stripExtName_append ext hext _]
  by_cases hpost : post = []
  · subst hpost
    rw [stripPostName_nil]
    have hre2 : dateStr dt ++ '_' :: (pre ++ area ++ '_' :: (timeStr dt ++ []))
        = dateStr dt ++ '_' :: ((pre ++ area) ++ '_' :: timeStr dt) := by simp
    rw [hre2, dateTimeCriteria_eq (dateStr dt) (pre ++ area) (timeStr dt)
      (underscore_notin_dateStr dt) (underscore_notin_timeStr dt)]
    exact filter_date_time dt
  · have hre1 : dateStr dt ++ '_' :: (pre ++ area ++ '_' :: (timeStr dt ++ post))
        = (dateStr dt ++ '_' :: (pre ++ area ++ '_' :: timeStr dt)) ++ post := by simp
    rw [hre1, stripPostName_append post hpost _]
    have hre2 : dateStr dt ++ '_' :: (pre ++ area ++ '_' :: timeStr dt)
        = dateStr dt ++ '_' :: ((pre ++ area) ++ '_' :: timeStr dt) := by simp
    rw [hre2, dateTimeCriteria_eq (dateStr dt) (pre ++ area) (timeStr dt)
      (underscore_notin_dateStr dt) (underscore_notin_timeStr dt)]
    exact filter_date_time dt

theorem listVal_lt (l : GoStr) (h : ∀ c ∈ l, c.toNat ≤ 57) :
    listVal l < 10 ^ l.length := by
  induction l with
  | nil => simp [listVal]
  | cons c l ih =>
    have hv : listVal l < 10 ^ l.length := ih (fun d hd => h d (List.mem_cons_of_mem c hd))
    have hd9 : c.toNat - 48 ≤ 9 := by
      have := h c (List.mem_cons_self c l)
      omega
    calc listVal (c :: l) = (c.toNat - 48) * 10 ^ l.length + listVal l := rfl
      _ < (c.toNat - 48) * 10 ^ l.length + 10 ^ l.length := Nat.add_lt_add_left hv _
      _ = (c.toNat - 48 + 1) * 10 ^ l.length := by ring
      _ ≤ 10 * 10 ^ l.length := Nat.mul_le_mul_right _ (by omega)
      _ = 10 ^ (c :: l).length := by
          rw [List.length_cons, pow_succ]
          ring

theorem listVal_head_lt {a b : Char} (as bs : GoStr) (hlen : as.length = bs.length)
    (hlt : a.toNat < b.toNat) (h48 : 48 ≤ a.toNat)
    (has : ∀ c ∈ as, c.toNat ≤ 57) :
    listVal (a :: as) < listVal (b :: bs) := by
  have hv : listVal as < 10 ^ as.length := listVal_lt as has
  calc listVal (a :: as) = (a.toNat - 48) * 10 ^ as.length + listVal as := rfl
    _ < (a.toNat - 48) * 10 ^ as.length + 10 ^ as.length := Nat.add_lt_add_left hv _
    _ = (a.toNat - 48 + 1) * 10 ^ as.length := by ring
    _ ≤ (b.toNat - 48) * 10 ^ as.length := Nat.mul_le_mul_right _ (by omega)
    _ = (b.toNat - 48) * 10 ^ bs.length := by rw [hlen]
    _ ≤ (b.toNat - 48) * 10 ^ bs.length + listVal bs := Nat.le_add_right _ _
    _ = listVal (b :: bs) := rfl

theorem goStrLtB_digits :
    ∀ l₁ l₂ : GoStr, l₁.length = l₂.length →
      (∀ c ∈ l₁, 48 ≤ c.toNat ∧ c.toNat ≤ 57) →
      (∀ c ∈ l₂, 48 ≤ c.toNat ∧ c.toNat ≤ 57) →
      (goStrLtB l₁ l₂ = true ↔ listVal l₁ < listVal l₂)
  | [], [], _, _, _ => by simp [goStrLtB, listVal]
  | [], b :: bs, hlen, _, _ => by simp at hlen
  | a :: as, [], hlen, _, _ => by simp at hlen
  | a :: as, b :: bs, hlen, h1, h2 => by
    have hlen2 : as.length = bs.length := by simp at hlen; omega
    have ha := h1 a (List.mem_cons_self a as)
    have hb := h2 b (List.mem_cons_self b bs)
    have has : ∀ c ∈ as, c.toNat ≤ 57 :=
      fun c hc => (h1 c (List.mem_cons_of_mem a hc)).2
    have hbs : ∀ c ∈ bs, c.toNat ≤ 57 :=
      fun c hc => (h2 c (List.mem_cons_of_mem b hc)).2
    unfold goStrLtB
    by_cases hab : a.toNat < b.toNat
    · rw [if_pos hab]
      simp only [true_iff]
      exact listVal_head_lt as bs hlen2 hab ha.1 has
    · by_cases hba : b.toNat < a.toNat
      · rw [if_neg hab, if_pos hba]
        simp only [Bool.false_eq_true, false_iff, not_lt]
        exact Nat.le_of_lt (listVal_head_lt bs as hlen2.symm hba hb.1 hbs)
      · rw [if_neg hab, if_neg hba]
        rw [goStrLtB_digits as bs hlen2
          (fun c hc => h1 c (List.mem_cons_of_mem a hc))
          (fun c hc => h2 c (List.mem_cons_of_mem b hc))]
        have hdv : a.toNat - 48 = b.toNat - 48 := by omega
        show listVal as < listVal bs
          ↔ (a.toNat - 48) * 10 ^ as.length + listVal as
            < (b.toNat - 48) * 10 ^ bs.length + listVal bs
        rw [hdv, hlen2]
        omega

theorem pad2_length (n : Nat) : (pad2 n).length = 2 := rfl

theorem pad4_length (n : Nat) : (pad4 n).length = 4 := rfl

theorem dtKey_length (dt : DateTime) : (dtKey dt).length = 14 := by
  unfold dtKey
  simp [pad2_length, pad4_length]

theorem dtKey_digits (dt : DateTime) :
    ∀ c ∈ dtKey dt, 48 ≤ c.toNat ∧ c.toNat ≤ 57 := by
  intro c hc
  unfold dtKey at hc
  simp only [List.mem_append] at hc
  rcases hc with ((((h | h) | h) | h) | h) | h
  · exact ⟨(pad4_props _ c h).1, (pad4_props _ c h).2.1⟩
  all_goals exact ⟨(pad2_props _ c h).1, (pad2_props _ c h).2.1⟩

theorem listVal_append (l₁ l₂ : GoStr) :
    listVal (l₁ ++ l₂) = listVal l₁ * 10 ^ l₂.length + listVal l₂ := by
  induction l₁ with
  | nil => simp [listVal]
  | cons c l₁ ih =>
    show (c.toNat - 48) * 10 ^ (l₁ ++ l₂).length + listVal (l₁ ++ l₂)
      = ((c.toNat - 48) * 10 ^ l₁.length + listVal l₁) * 10 ^ l₂.length + listVal l₂
    rw [ih, List.length_append, pow_add]
    ring

theorem listVal_pad2 (n : Nat) (h : n ≤ 99) : listVal (pad2 n) = n := by
  simp only [pad2, listVal]
  rw [digitChar_toNat_eq (n / 10 % 10) (Nat.mod_lt _ (by omega)),
    digitChar_toNat_eq (n % 10) (Nat.mod_lt _ (by omega))]
  simp
  omega

theorem listVal_pad4 (n : Nat) (h : n ≤ 9999) : listVal (pad4 n) = n := by
  simp only [pad4, listVal]
  rw [digitChar_toNat_eq (n / 1000 % 10) (Nat.mod_lt _ (by omega)),
    digitChar_toNat_eq (n / 100 % 10) (Nat.mod_lt _ (by omega)),
    digitChar_toNat_eq (n / 10 % 10) (Nat.mod_lt _ (by omega)),
    digitChar_toNat_eq (n % 10) (Nat.mod_lt _ (by omega))]
  simp
  omega

theorem listVal_dtKey (dt : DateTime) (h : DTBounds dt) :
    listVal (dtKey dt) = dtVal dt := by
  obtain ⟨hy, hmo, hd, hh, hmi, hs⟩ := h
  unfold dtKey
  simp only [listVal_append, pad2_length, pad4_length]
  rw [listVal_pad4 _ hy, listVal_pad2 _ hmo, listVal_pad2 _ hd, listVal_pad2 _ hh,
    listVal_pad2 _ hmi, listVal_pad2 _ hs]
  unfold dtVal
  norm_num

theorem dtKey_le_iff (dt1 dt2 : DateTime) (h1 : DTBounds dt1) (h2 : DTBounds dt2) :
    goStrLtB (dtKey dt2) (dtKey dt1) = false ↔ chronoLe dt1 dt2 := by
  have hiff := goStrLtB_digits (dtKey dt2) (dtKey dt1)
    (by rw [dtKey_length, dtKey_length]) (dtKey_digits dt2) (dtKey_digits dt1)
  rw [listVal_dtKey dt2 h2, listVal_dtKey dt1 h1] at hiff
  have hval : goStrLtB (dtKey dt2) (dtKey dt1) = false ↔ ¬ dtVal dt2 < dtVal dt1 := by
    constructor
    · intro hf hlt
      rw [hiff.mpr hlt] at hf
      cases hf
    · intro hn
      cases hgs : goStrLtB (dtKey dt2) (dtKey dt1) with
      | false => rfl
      | true => exact absurd (hiff.mp hgs) hn
  rw [hval]
  obtain ⟨a1, a2, a3, a4, a5, a6⟩ := h1
  obtain ⟨b1, b2, b3, b4, b5, b6⟩ := h2
  unfold chronoLe dtVal
  omega

/-- C7: the archive-name sort key exactly inverts the namer's format
`{date}_{prefix}{area}_{time}{postfix}{ext}` — it recovers the digits
`YYYYMMDDHHMMSS` from every name the namer produced — and therefore
sorting a set of namer-produced names by `sortByArchiveName`'s key (as
`getArchiveFiles` does) arranges them exactly as sorting the original
date-time pairs chronologically. -/
theorem archive_name_roundtrip (pre area post ext : GoStr) (dts : List DateTime)
    (hext : ext ≠ [])
    (hs1 : '/' ∉ pre) (hs2 : '/' ∉ area) (hs3 : '/' ∉ post) (hs4 : '/' ∉ ext)
    (hb : ∀ dt ∈ dts, DTBounds dt) :
    (∀ dt : DateTime,
        sortByArchiveName ext post (mkArchiveBasename pre area dt post ext) = dtKey dt)
    ∧ ((dts.map (fun dt => mkArchiveBasename pre area dt post ext)).insertionSort
          (leBy (sortByArchiveName ext post))
        = (dts.insertionSort chronoLe).map
            (fun dt => mkArchiveBasename pre area dt post ext)) := by
  have hinv : ∀ dt : DateTime,
      sortByArchiveName ext post (mkArchiveBasename pre area dt post ext) = dtKey dt :=
    fun dt => sortByArchiveName_inverts pre area post ext dt hext hs1 hs2 hs3 hs4
  refine ⟨hinv, ?_⟩
  refine (List.map_insertionSort chronoLe (leBy (sortByArchiveName ext post))
    (fun dt => mkArchiveBasename pre area dt post ext) dts ?_).symm
  intro a ha b hb2
  unfold leBy
  rw [hinv a, hinv b]
  exact (dtKey_le_iff a b (hb a ha) (hb b hb2)).symm

/-- Witness for `archive_name_roundtrip` with the CI configuration
(prefix `CI_`, postfix `_T`, extension `.zip`) and two date-times given
out of chronological order. -/
theorem archive_name_roundtrip_witness :
    sortByArchiveName (gs ".zip") (gs "_T")
        (mkArchiveBasename (gs "CI_") (gs "064") ⟨2025, 1, 2, 9, 59, 55⟩ (gs "_T") (gs ".zip"))
      = dtKey ⟨2025, 1, 2, 9, 59, 55⟩
    ∧ (([⟨2025, 1, 2, 10, 0, 0⟩, ⟨2024, 12, 31, 23, 59, 59⟩] : List DateTime).map
          (fun dt => mkArchiveBasename (gs "CI_") (gs "064") dt (gs "_T") (gs ".zip"))).insertionSort
          (leBy (sortByArchiveName (gs ".zip") (gs "_T")))
        = (([⟨2025, 1, 2, 10, 0, 0⟩, ⟨2024, 12, 31, 23, 59, 59⟩] : List DateTime).insertionSort
              chronoLe).map
            (fun dt => mkArchiveBasename (gs "CI_") (gs "064") dt (gs "_T") (gs ".zip")) :=
  ⟨(archive_name_roundtrip (gs "CI_") (gs "064") (gs "_T") (gs ".zip")
      [⟨2025, 1, 2, 10, 0, 0⟩, ⟨2024, 12, 31, 23, 59, 59⟩]
      (by decide) (by decide) (by decide) (by decide) (by decide) (by decide)).1
      ⟨2025, 1, 2, 9, 59, 55⟩,
   (archive_name_roundtrip (gs "CI_") (gs "064") (gs "_T") (gs ".zip")
      [⟨2025, 1, 2, 10, 0, 0⟩, ⟨2024, 12, 31, 23, 59, 59⟩]
      (by decide) (by decide) (by decide) (by decide) (by decide) (by decide)).2⟩

end Astrocam
